import Mathlib

/-!
Verification development for the trifling repository's local content store
(`src/web/js/editor.js`): canonical JSON hashing, the IndexedDB-backed
content / pointer / version stores, and the editor save path.

JavaScript values that can reach `canonicalJSON` / `computeHash` are modelled
by `JSValue`; JS numbers are modelled as integers (no claim depends on float
formatting), object field lists are in insertion order as in a JS object, and
key sorting uses Lean's lexicographic `String` order, matching JS `.sort()`
on the code-point range these payloads use.
-/

set_option maxHeartbeats 1000000
set_option maxRecDepth 100000


inductive JSValue where
  | null
  | undef
  | bool (b : Bool)
  | num (n : Int)
  | str (s : String)
  | arr (items : List JSValue)
  | obj (fields : List (String × JSValue))

/-- Hex digits used by `Number.prototype.toString(16)` and `\uXXXX` escapes:
lowercase. -/
def hexDigitChar (n : Nat) : Char :=
  Char.ofNat (if n < 10 then 48 + n else 87 + n)

def hex4 (n : Nat) : String :=
  String.mk [hexDigitChar (n / 4096 % 16), hexDigitChar (n / 256 % 16),
             hexDigitChar (n / 16 % 16), hexDigitChar (n % 16)]

/-- One character of `JSON.stringify` string escaping. -/
def escChar (c : Char) : String :=
  let n := c.toNat
  if n = 34 then "\\\""
  else if n = 92 then "\\\\"
  else if n = 8 then "\\b"
  else if n = 9 then "\\t"
  else if n = 10 then "\\n"
  else if n = 12 then "\\f"
  else if n = 13 then "\\r"
  else if n < 32 then "\\u" ++ hex4 n
  else String.singleton c

/-- `JSON.stringify` of a string. -/
def jsonQuote (s : String) : String :=
  "\"" ++ String.join (s.data.map escChar) ++ "\""

/-- Lexicographic comparison of character lists by code point. -/
def charsLe : List Char → List Char → Bool
  | [], _ => true
  | _ :: _, [] => false
  | a :: as, b :: bs =>
      if a.toNat = b.toNat then charsLe as bs else decide (a.toNat < b.toNat)

/-- JS `a <= b` comparison on strings, as used (via the default comparator) by
`Array.prototype.sort()`: lexicographic by code unit, which agrees with
code-point order on the keys these payloads use. -/
def strLeB (a b : String) : Bool := charsLe a.data b.data

/-
`canonicalJSON` from `src/web/js/editor.js` (lines 1424-1444):

- `null` serializes to the literal `null`;
- `undefined` serializes to JS `undefined` (modelled as `none`);
- primitives go through `JSON.stringify`;
- arrays map `canonicalJSON` over the items and `join(',')` the results
  (JS `join` renders an `undefined` element as the empty string);
- objects sort their keys with `.sort()`, serialize each `key:value` pair,
  and drop pairs whose value serialized to `undefined`.
-/

mutual

/--
`canonicalJSON` from `src/web/js/editor.js` (lines 1424-1444); see the module
doc comment above and `canonicalJSON_obj_eq` below for the verbatim
lookup-based form of the object case.
-/
def canonicalJSON : JSValue → Option String
  | .null => some "null"
  | .undef => none
  | .bool b => some (if b then "true" else "false")
  | .num n => some (toString n)
  | .str s => some (jsonQuote s)
  | .arr items =>
      some ("[" ++ String.intercalate "," (canonItems items) ++ "]")
  | .obj fields =>
      some ("\x7b" ++ String.intercalate ","
        (((fields.map Prod.fst).mergeSort strLeB).filterMap (fun k =>
          match (canonFields fields).lookup k with
          | none => none
          | some none => none
          | some (some sv) => some (jsonQuote k ++ ":" ++ sv)))
        ++ "\x7d")

/-- `items.map(item => canonicalJSON(item))` with JS `join` rendering
`undefined` as the empty string. -/
def canonItems : List JSValue → List String
  | [] => []
  | v :: vs => (canonicalJSON v).getD "" :: canonItems vs

/-- Each field's serialized value, in field order; `lookup` on this list is the
same as `canonicalJSON(obj[key])` in the source (proved in
`canonFields_lookup` below); the indirection makes the recursion structural. -/
def canonFields : List (String × JSValue) → List (String × Option String)
  | [] => []
  | (k, v) :: fs => (k, canonicalJSON v) :: canonFields fs

end

/- UTF-8 encoding of a string as a list of byte values (`TextEncoder.encode`). -/

def utf8EncodeCharNat (n : Nat) : List Nat :=
  if n < 128 then [n]
  else if n < 2048 then [192 + n / 64, 128 + n % 64]
  else if n < 65536 then [224 + n / 4096, 128 + (n / 64) % 64, 128 + n % 64]
  else [240 + n / 262144, 128 + (n / 4096) % 64, 128 + (n / 64) % 64, 128 + n % 64]

def utf8Encode (s : String) : List Nat :=
  s.data.foldr (fun c acc => utf8EncodeCharNat c.toNat ++ acc) []

/- SHA-256 (FIPS 180-4) over byte lists; words are `Nat` reduced mod 2^32. -/

def M32 : Nat := 4294967296

def rotr32 (n x : Nat) : Nat := x / 2 ^ n + x % 2 ^ n * 2 ^ (32 - n)

def shr32 (n x : Nat) : Nat := x / 2 ^ n

def smallSigma0 (x : Nat) : Nat := rotr32 7 x ^^^ rotr32 18 x ^^^ shr32 3 x

def smallSigma1 (x : Nat) : Nat := rotr32 17 x ^^^ rotr32 19 x ^^^ shr32 10 x

def bigSigma0 (x : Nat) : Nat := rotr32 2 x ^^^ rotr32 13 x ^^^ rotr32 22 x

def bigSigma1 (x : Nat) : Nat := rotr32 6 x ^^^ rotr32 11 x ^^^ rotr32 25 x

def shaK : List Nat :=
  [1116352408, 1899447441, 3049323471, 3921009573, 961987163,
   1508970993, 2453635748, 2870763221, 3624381080, 310598401,
   607225278, 1426881987, 1925078388, 2162078206, 2614888103,
   3248222580, 3835390401, 4022224774, 264347078, 604807628,
   770255983, 1249150122, 1555081692, 1996064986, 2554220882,
   2821834349, 2952996808, 3210313671, 3336571891, 3584528711,
   113926993, 338241895, 666307205, 773529912, 1294757372,
   1396182291, 1695183700, 1986661051, 2177026350, 2456956037,
   2730485921, 2820302411, 3259730800, 3345764771, 3516065817,
   3600352804, 4094571909, 275423344, 430227734, 506948616,
   659060556, 883997877, 958139571, 1322822218, 1537002063,
   1747873779, 1955562222, 2024104815, 2227730452, 2361852424,
   2428436474, 2756734187, 3204031479, 3329325298]

structure SHAState where
  a : Nat
  b : Nat
  c : Nat
  d : Nat
  e : Nat
  f : Nat
  g : Nat
  h : Nat
deriving Repr, DecidableEq

def shaInit : SHAState :=
  ⟨1779033703, 3144134277, 1013904242, 2773480762,
   1359893119, 2600822924, 528734635, 1541459225⟩

def shaRound (st : SHAState) (kw : Nat) : SHAState :=
  let s1 := bigSigma1 st.e
  let ch := (st.e &&& st.f) ^^^ ((st.e ^^^ (M32 - 1)) &&& st.g)
  let temp1 := (st.h + s1 + ch + kw) % M32
  let s0 := bigSigma0 st.a
  let maj := (st.a &&& st.b) ^^^ (st.a &&& st.c) ^^^ (st.b &&& st.c)
  let temp2 := (s0 + maj) % M32
  ⟨(temp1 + temp2) % M32, st.a, st.b, st.c, (st.d + temp1) % M32, st.e, st.f, st.g⟩

def extendSchedule : List Nat → Nat → List Nat
  | w, 0 => w
  | w, n + 1 =>
      let len := w.length
      let wNew := (smallSigma1 (w.getD (len - 2) 0) + w.getD (len - 7) 0 +
                   smallSigma0 (w.getD (len - 15) 0) + w.getD (len - 16) 0) % M32
      extendSchedule (w ++ [wNew]) n

def toWords : List Nat → List Nat
  | b0 :: b1 :: b2 :: b3 :: rest =>
      (b0 * 16777216 + b1 * 65536 + b2 * 256 + b3) :: toWords rest
  | _ => []

def compressChunk (st0 : SHAState) (chunkBytes : List Nat) : SHAState :=
  let w := extendSchedule (toWords chunkBytes) 48
  let kw := List.zipWith (fun k wi => (k + wi) % M32) shaK w
  let st := kw.foldl shaRound st0
  ⟨(st0.a + st.a) % M32, (st0.b + st.b) % M32, (st0.c + st.c) % M32, (st0.d + st.d) % M32,
   (st0.e + st.e) % M32, (st0.f + st.f) % M32, (st0.g + st.g) % M32, (st0.h + st.h) % M32⟩

def lenBE8 (n : Nat) : List Nat :=
  [n / 2 ^ 56 % 256, n / 2 ^ 48 % 256, n / 2 ^ 40 % 256, n / 2 ^ 32 % 256,
   n / 2 ^ 24 % 256, n / 2 ^ 16 % 256, n / 2 ^ 8 % 256, n % 256]

def padMessage (msg : List Nat) : List Nat :=
  msg ++ [128] ++ List.replicate ((119 - msg.length % 64) % 64) 0 ++ lenBE8 (msg.length * 8)

def toChunksAux : Nat → List Nat → List (List Nat)
  | 0, _ => []
  | fuel + 1, l => if l = [] then [] else l.take 64 :: toChunksAux fuel (l.drop 64)

def toChunks (l : List Nat) : List (List Nat) := toChunksAux l.length l

def sha256Words (msg : List Nat) : SHAState :=
  (toChunks (padMessage msg)).foldl compressChunk shaInit

def wordBytes (w : Nat) : List Nat :=
  [w / 16777216 % 256, w / 65536 % 256, w / 256 % 256, w % 256]

def sha256Bytes (msg : List Nat) : List Nat :=
  let st := sha256Words msg
  wordBytes st.a ++ wordBytes st.b ++ wordBytes st.c ++ wordBytes st.d ++
  wordBytes st.e ++ wordBytes st.f ++ wordBytes st.g ++ wordBytes st.h

def byteToHex (b : Nat) : List Char := [hexDigitChar (b / 16), hexDigitChar (b % 16)]

def bytesToHex (bs : List Nat) : String :=
  String.mk (bs.foldr (fun b acc => byteToHex b ++ acc) [])

def sha256Hex (msg : List Nat) : String := bytesToHex (sha256Bytes msg)

/-- The string actually fed to the UTF-8 encoder by `computeHash`
(editor.js lines 1452-1468): a string payload is hashed as-is, anything else
goes through `canonicalJSON`.  (`TextEncoder.encode(undefined)` encodes the
empty string, hence the `getD ""`.) -/
def hashInput : JSValue → String
  | .str s => s
  | v => (canonicalJSON v).getD ""

/-- `computeHash` from editor.js: SHA-256 of the UTF-8 bytes of the canonical
text, emitted as lowercase hex. -/
def computeHash (content : JSValue) : String := sha256Hex (utf8Encode (hashInput content))

/-! ### Normal form: key order and `undefined`-valued fields forgotten -/

mutual

/-- The normal form of a payload under the equivalence "equal up to object key
ordering and up to presence of `undefined`-valued object fields": object
fields are recursively normalized, `undefined`-valued fields dropped, and the
remaining fields sorted by key. -/
def normalizeJS : JSValue → JSValue
  | .null => .null
  | .undef => .undef
  | .bool b => .bool b
  | .num n => .num n
  | .str s => .str s
  | .arr items => .arr (normItems items)
  | .obj fields => .obj ((normFields fields).mergeSort (fun p q => strLeB p.1 q.1))

def normItems : List JSValue → List JSValue
  | [] => []
  | v :: vs => normalizeJS v :: normItems vs

def normFields : List (String × JSValue) → List (String × JSValue)
  | [] => []
  | (_, .undef) :: fs => normFields fs
  | (k, v) :: fs => (k, normalizeJS v) :: normFields fs

end

mutual

/-- Recursively: every object's field list has duplicate-free keys (always true
for values read off actual JS objects). -/
def wellFormed : JSValue → Bool
  | .null => true
  | .undef => true
  | .bool _ => true
  | .num _ => true
  | .str _ => true
  | .arr items => wfItems items
  | .obj fields => decide ((fields.map Prod.fst).Nodup) && wfFields fields

def wfItems : List JSValue → Bool
  | [] => true
  | v :: vs => wellFormed v && wfItems vs

def wfFields : List (String × JSValue) → Bool
  | [] => true
  | (_, v) :: fs => wellFormed v && wfFields fs

end

def isUndef : JSValue → Bool
  | .undef => true
  | _ => false

def isStr : JSValue → Bool
  | .str _ => true
  | _ => false

/-!
### The IndexedDB-backed stores of editor.js

Object stores (`initDB`, lines 1357-1399): `users` (keyPath `id`), `trifles`
(keyPath `id`, index `owner_id`), `content` (keyPath `hash`), `versions`
(keyPath `id`, autoIncrement, index `trifle_id`).  A store is modelled as a
list of records; IndexedDB `put` (insert-or-replace at the key) is
`putByKey`, keyed `get` is `findByKey`, `add` appends after a key-existence
check.  `Date.now()` and `generateId` are nondeterministic inputs and appear
as explicit parameters.  Fallible operations return `Except` with the
source's error message; a thrown error leaves the caller's state untouched,
which the pure model renders by returning no state on the error path.
-/

structure ContentRecord where
  hash : String
  data : JSValue
  type : String

structure UserRecord where
  id : String
  email : Option String
  current_hash : String
  last_modified : Nat
  logical_clock : Nat

structure TrifleRecord where
  id : String
  owner_id : String
  current_hash : String
  last_modified : Nat
  logical_clock : Nat

structure VersionRecord where
  id : Nat
  trifle_id : String
  hash : String
  timestamp : Nat
  label : String
deriving DecidableEq

structure DB where
  content : List ContentRecord
  users : List UserRecord
  trifles : List TrifleRecord
  versions : List VersionRecord
  nextVersionId : Nat

def emptyDB : DB := ⟨[], [], [], [], 1⟩

/-- IndexedDB `store.put(r)`: replace the record at `r`'s key, else insert. -/
def putByKey {ρ : Type} (keyOf : ρ → String) (r : ρ) : List ρ → List ρ
  | [] => [r]
  | x :: xs => if keyOf x = keyOf r then r :: xs else x :: putByKey keyOf r xs

/-- IndexedDB `store.get(k)`. -/
def findByKey {ρ : Type} (keyOf : ρ → String) (k : String) : List ρ → Option ρ
  | [] => none
  | x :: xs => if keyOf x = k then some x else findByKey keyOf k xs

/-- `storeContent(data, type)` (editor.js lines 1478-1492): hash the payload,
`put` the record `(hash, data, type)`, return the hash. -/
def storeContent (db : DB) (data : JSValue) (type : String) : DB × String :=
  let hash := computeHash data
  ({ db with content := putByKey ContentRecord.hash ⟨hash, data, type⟩ db.content }, hash)

/-- `getContent(hash)` (lines 1500-1514): the stored record's `data`, or
`null` when absent. -/
def getContent (db : DB) (hash : String) : Option JSValue :=
  (findByKey ContentRecord.hash hash db.content).map ContentRecord.data

def getUser (db : DB) (userId : String) : Option UserRecord :=
  findByKey UserRecord.id userId db.users

/-- The fixed user data blob built by `createUser` (lines 1523-1557). -/
def defaultUserData (displayName : String) : JSValue :=
  .obj [("display_name", .str displayName), ("avatar", .null),
        ("settings", .obj [("auto_sync", .bool false), ("theme", .str "dark"),
                           ("auto_save_interval", .num 60)])]

/-- `createUser(displayName)`; the random `generateId('user')` and
`Date.now()` are parameters.  `store.add` rejects an existing key. -/
def createUser (db : DB) (id : String) (displayName : String) (now : Nat) :
    Except String (DB × UserRecord) :=
  let res := storeContent db (defaultUserData displayName) "user"
  let user : UserRecord := ⟨id, none, res.2, now, 1⟩
  if (res.1.users.map UserRecord.id).contains id then .error "ConstraintError"
  else .ok ({ res.1 with users := res.1.users ++ [user] }, user)

/-- `updateUser(userId, userData)` (lines 1607-1630): look the pointer up
first and throw `'User not found'` before anything is written; otherwise
store the new blob and `put` the pointer with the new hash, the mutation
time, and the clock bumped by exactly one. -/
def updateUser (db : DB) (userId : String) (userData : JSValue) (now : Nat) :
    Except String (DB × UserRecord) :=
  match getUser db userId with
  | none => .error "User not found"
  | some user =>
      let res := storeContent db userData "user"
      let user' : UserRecord :=
        { user with current_hash := res.2, last_modified := now,
                    logical_clock := user.logical_clock + 1 }
      .ok ({ res.1 with users := putByKey UserRecord.id user' res.1.users }, user')

def getTrifle (db : DB) (trifleId : String) : Option TrifleRecord :=
  findByKey TrifleRecord.id trifleId db.trifles

/-- `'# Welcome to Trifle!\nprint("Hello, world!")\n'` from `createTrifle`. -/
def defaultMainPy : String := "# Welcome to Trifle!\nprint(\"Hello, world!\")\n"

/-- `createTrifle(ownerId, name, description)` (lines 1652-1689): store the
starter `main.py` blob, store the trifle data blob referencing it, `add` the
pointer with `logical_clock = 1`. -/
def createTrifle (db : DB) (id : String) (ownerId : String) (name : String)
    (description : String) (now : Nat) : Except String (DB × TrifleRecord) :=
  let res1 := storeContent db (.str defaultMainPy) "file"
  let trifleData : JSValue :=
    .obj [("name", .str name), ("description", .str description),
          ("files", .arr [.obj [("path", .str "main.py"), ("hash", .str res1.2)]])]
  let res2 := storeContent res1.1 trifleData "trifle"
  let trifle : TrifleRecord := ⟨id, ownerId, res2.2, now, 1⟩
  if (res2.1.trifles.map TrifleRecord.id).contains id then .error "ConstraintError"
  else .ok ({ res2.1 with trifles := res2.1.trifles ++ [trifle] }, trifle)

/-- `updateTrifle(trifleId, trifleData)` (lines 1770-1793), mirror of
`updateUser`. -/
def updateTrifle (db : DB) (trifleId : String) (trifleData : JSValue) (now : Nat) :
    Except String (DB × TrifleRecord) :=
  match getTrifle db trifleId with
  | none => .error "Trifle not found"
  | some trifle =>
      let res := storeContent db trifleData "trifle"
      let trifle' : TrifleRecord :=
        { trifle with current_hash := res.2, last_modified := now,
                      logical_clock := trifle.logical_clock + 1 }
      .ok ({ res.1 with trifles := putByKey TrifleRecord.id trifle' res.1.trifles }, trifle')

def getTrifleData (db : DB) (trifleId : String) : Option JSValue :=
  match getTrifle db trifleId with
  | none => none
  | some t => getContent db t.current_hash

/-- `deleteTrifle(trifleId)` (lines 1801-1826): one transaction deletes the
pointer by primary key and cursor-deletes every version whose `trifle_id`
index key equals the id.  Content blobs and users are untouched. -/
def deleteTrifle (db : DB) (trifleId : String) : DB :=
  { db with trifles := db.trifles.filter (fun t => t.id ≠ trifleId),
            versions := db.versions.filter (fun v => v.trifle_id ≠ trifleId) }

/-- `createVersion(trifleId, hash, label)` (lines 1836-1857); `label`
defaults to `'session'` at the JS call boundary; `store.add` assigns the
auto-increment key. -/
def createVersion (db : DB) (trifleId : String) (hash : String) (label : String)
    (now : Nat) : DB × VersionRecord :=
  let version : VersionRecord := ⟨db.nextVersionId, trifleId, hash, now, label⟩
  ({ db with versions := db.versions ++ [version],
             nextVersionId := db.nextVersionId + 1 }, version)

/-- `getVersions(trifleId)` (lines 1865-1881): all versions with this
`trifle_id`, sorted newest-first by `timestamp` (JS `sort` is stable). -/
def getVersions (db : DB) (trifleId : String) : List VersionRecord :=
  (db.versions.filter (fun v => v.trifle_id = trifleId)).mergeSort
    (fun a b => decide (b.timestamp ≤ a.timestamp))

/-- The source's `sessionVersions` local in `cleanupVersions`: the
`session`-labeled versions, newest first. -/
def sessionsOf (db : DB) (trifleId : String) : List VersionRecord :=
  (getVersions db trifleId).filter (fun v => v.label = "session")

/-- The source's `toDelete` local in `cleanupVersions`: every session version
beyond the newest `keepCount`. -/
def toDeleteOf (db : DB) (trifleId : String) (keepCount : Nat) : List VersionRecord :=
  (sessionsOf db trifleId).drop keepCount

/-- `cleanupVersions(trifleId, keepCount)` (lines 1890-1911); `keepCount`
defaults to 10 at the JS call boundary.  Keeps the newest `keepCount`
`session`-labeled versions, deletes the rest of the session versions by id,
returns the number deleted. -/
def cleanupVersions (db : DB) (trifleId : String) (keepCount : Nat) : DB × Nat :=
  let toDelete := toDeleteOf db trifleId keepCount
  if toDelete.isEmpty then (db, 0)
  else
    let remaining := db.versions.filter
      (fun v => !((toDelete.map VersionRecord.id).contains v.id))
    ({ db with versions := remaining }, toDelete.length)

/-- JS property read `v[k]` (absent key reads as `undefined`). -/
def jsGet (v : JSValue) (k : String) : JSValue :=
  match v with
  | .obj fields => (fields.lookup k).getD .undef
  | _ => .undef

def setField : List (String × JSValue) → String → JSValue → List (String × JSValue)
  | [], k, x => [(k, x)]
  | (k', v') :: fs, k, x =>
      if k' = k then (k, x) :: fs else (k', v') :: setField fs k x

/-- JS property assignment `v[k] = x`: replace in place, else append. -/
def jsSet (v : JSValue) (k : String) (x : JSValue) : JSValue :=
  match v with
  | .obj fields => .obj (setField fields k x)
  | other => other

/-- JS `===` between a value and a string. -/
def isStrEq (v : JSValue) (s : String) : Bool :=
  match v with
  | .str t => t = s
  | _ => false

/-- `trifleData.files.findIndex(f => f.path === path)` followed by
`files[fileIndex].hash = newHash` when found: rewrite the first entry whose
`path` matches. -/
def updateFileHash : List JSValue → String → String → List JSValue
  | [], _, _ => []
  | f :: fs, path, newHash =>
      if isStrEq (jsGet f "path") path then jsSet f "hash" (.str newHash) :: fs
      else f :: updateFileHash fs path newHash

/-- The save path `saveCurrentFile` (editor.js lines 536-579), on the
non-early-return branch (a current file with unsaved changes): store the new
file content blob, read the trifle data, patch the file entry's hash, and
`updateTrifle`.  No version snapshot is taken anywhere on this path. -/
def saveCurrentFile (db : DB) (trifleId : String) (filePath : String)
    (content : String) (now : Nat) : Except String DB :=
  let res := storeContent db (.str content) "file"
  match getTrifleData res.1 trifleId with
  | none => .error "TypeError"
  | some trifleData =>
      let files := match jsGet trifleData "files" with
        | .arr items => items
        | _ => []
      let trifleData' :=
        jsSet trifleData "files" (.arr (updateFileHash files filePath res.2))
      (updateTrifle res.1 trifleId trifleData' now).map Prod.fst

/-! ### Pointer clocks and the local-operation step relation -/

def userClock (db : DB) (id : String) : Option Nat :=
  (getUser db id).map UserRecord.logical_clock

def trifleClock (db : DB) (id : String) : Option Nat :=
  (getTrifle db id).map TrifleRecord.logical_clock

/-- One local operation of the store layer. -/
inductive Step : DB → DB → Prop where
  | store (db : DB) (data : JSValue) (type : String) :
      Step db (storeContent db data type).1
  | cuser (db db' : DB) (id name : String) (now : Nat) (u : UserRecord) :
      createUser db id name now = .ok (db', u) → Step db db'
  | uuser (db db' : DB) (id : String) (data : JSValue) (now : Nat) (u : UserRecord) :
      updateUser db id data now = .ok (db', u) → Step db db'
  | ctrifle (db db' : DB) (id oid name desc : String) (now : Nat) (t : TrifleRecord) :
      createTrifle db id oid name desc now = .ok (db', t) → Step db db'
  | utrifle (db db' : DB) (id : String) (data : JSValue) (now : Nat) (t : TrifleRecord) :
      updateTrifle db id data now = .ok (db', t) → Step db db'
  | dtrifle (db : DB) (id : String) : Step db (deleteTrifle db id)
  | cversion (db : DB) (tid hash label : String) (now : Nat) :
      Step db (createVersion db tid hash label now).1
  | cleanup (db : DB) (tid : String) (keep : Nat) :
      Step db (cleanupVersions db tid keep).1
  | save (db db' : DB) (tid path content : String) (now : Nat) :
      saveCurrentFile db tid path content now = .ok db' → Step db db'

/-- Every pointer record carries `logical_clock ≥ 1`. -/
def ClocksGE1 (db : DB) : Prop :=
  (∀ u ∈ db.users, 1 ≤ u.logical_clock) ∧ (∀ t ∈ db.trifles, 1 ≤ t.logical_clock)

/-- A one-user store used to instantiate the clock-monotonicity claims. -/
def dbC4 : DB := ⟨[], [⟨"user_a", none, "h", 0, 3⟩], [], [], 1⟩

/-- The store produced by creating one trifle in an empty database. -/
def dbC8 : DB :=
  match createTrifle emptyDB "trifle_a" "user_u" "T" "" 0 with
  | .ok p => p.1
  | .error _ => emptyDB

/-- The store produced by one editor save on `dbC8`. -/
def dbC8' : DB :=
  match saveCurrentFile dbC8 "trifle_a" "main.py" "pr" 5 with
  | .ok d => d
  | .error _ => emptyDB

/-- A version store with two session versions of one trifle, for the
idempotence witness. -/
def dbC5 : DB :=
  ⟨[], [], [], [⟨1, "t", "h1", 10, "session"⟩, ⟨2, "t", "h2", 20, "session"⟩], 3⟩

theorem mem_of_lookup_eq_some {β : Type} {l : List (String × β)} {k : String} {v : β}
    (h : l.lookup k = some v) : (k, v) ∈ l := by
  induction l with
  | nil => simp at h
  | cons p l ih =>
    rw [List.lookup_cons] at h
    by_cases hk : (k == p.1) = true
    · simp only [hk, if_true] at h
      obtain ⟨k', v'⟩ := p
      simp only [Option.some.injEq] at h
      have : k = k' := by simpa using hk
      subst this; subst h
      exact List.mem_cons_self _ _
    · simp only [hk, if_false] at h
      exact List.mem_cons_of_mem _ (ih h)

/-! ### Faithfulness of the canonical serializer to the source shape -/

theorem canonItems_eq (items : List JSValue) :
    canonItems items = items.map (fun v => (canonicalJSON v).getD "") := by
  induction items with
  | nil => rfl
  | cons v vs ih => simp [canonItems, ih]

theorem canonFields_eq (fields : List (String × JSValue)) :
    canonFields fields = fields.map (fun p => (p.1, canonicalJSON p.2)) := by
  induction fields with
  | nil => rfl
  | cons p fs ih =>
    obtain ⟨k, v⟩ := p
    simp [canonFields, ih]

theorem lookup_map_snd {β γ : Type} (g : β → γ) (l : List (String × β)) (k : String) :
    (l.map (fun p => (p.1, g p.2))).lookup k = (l.lookup k).map g := by
  induction l with
  | nil => rfl
  | cons p fs ih =>
    obtain ⟨k', v⟩ := p
    by_cases hk : (k == k') = true
    · simp [List.lookup_cons, hk]
    · simp [List.lookup_cons, hk, ih]

theorem canonFields_lookup (fields : List (String × JSValue)) (k : String) :
    (canonFields fields).lookup k = (fields.lookup k).map canonicalJSON := by
  rw [canonFields_eq, lookup_map_snd]

theorem canonicalJSON_arr_eq (items : List JSValue) :
    canonicalJSON (.arr items) =
      some ("[" ++ String.intercalate ","
        (items.map (fun v => (canonicalJSON v).getD "")) ++ "]") := by
  rw [canonicalJSON, canonItems_eq]

/-- The object case of `canonicalJSON`, in the verbatim shape of the source:
iterate over the sorted keys, serialize `obj[key]` (an absent key would read as
`undefined`), and keep the `"key":value` pairs whose value serialized. -/
theorem canonicalJSON_obj_eq (fields : List (String × JSValue)) :
    canonicalJSON (.obj fields) =
      some ("\x7b" ++ String.intercalate ","
        (((fields.map Prod.fst).mergeSort strLeB).filterMap (fun k =>
          (canonicalJSON ((fields.lookup k).getD .undef)).map
            (fun sv => jsonQuote k ++ ":" ++ sv))) ++ "\x7d") := by
  rw [canonicalJSON]
  congr 4
  apply List.filterMap_congr
  intro k hk
  rw [canonFields_lookup]
  cases hl : fields.lookup k with
  | none => simp [canonicalJSON]
  | some v => cases hcv : canonicalJSON v <;> simp [hcv]

/-! ### Order properties of the key comparator -/

theorem charsLe_total (a b : List Char) : charsLe a b || charsLe b a := by
  induction a generalizing b with
  | nil => simp [charsLe]
  | cons x xs ih =>
    cases b with
    | nil => simp [charsLe]
    | cons y ys =>
      simp only [charsLe]
      by_cases hxy : x.toNat = y.toNat
      · rw [if_pos hxy, if_pos hxy.symm]
        exact ih ys
      · have hyx : ¬y.toNat = x.toNat := fun h => hxy h.symm
        rw [if_neg hxy, if_neg hyx]
        simp only [Bool.or_eq_true, decide_eq_true_eq]
        omega

theorem charsLe_trans (a b c : List Char) (h1 : charsLe a b = true)
    (h2 : charsLe b c = true) : charsLe a c = true := by
  induction a generalizing b c with
  | nil => simp [charsLe]
  | cons x xs ih =>
    cases b with
    | nil => simp [charsLe] at h1
    | cons y ys =>
      cases c with
      | nil => simp [charsLe] at h2
      | cons z zs =>
        simp only [charsLe] at h1 h2 ⊢
        by_cases hxy : x.toNat = y.toNat <;> by_cases hyz : y.toNat = z.toNat
        · rw [if_pos hxy] at h1
          rw [if_pos hyz] at h2
          rw [if_pos (hxy.trans hyz)]
          exact ih ys zs h1 h2
        · rw [if_pos hxy] at h1
          rw [if_neg hyz] at h2
          have hlt : y.toNat < z.toNat := by simpa using h2
          have hne : ¬x.toNat = z.toNat := by omega
          rw [if_neg hne]
          simp only [decide_eq_true_eq]
          omega
        · rw [if_neg hxy] at h1
          rw [if_pos hyz] at h2
          have hlt : x.toNat < y.toNat := by simpa using h1
          have hne : ¬x.toNat = z.toNat := by omega
          rw [if_neg hne]
          simp only [decide_eq_true_eq]
          omega
        · rw [if_neg hxy] at h1
          rw [if_neg hyz] at h2
          have hlt1 : x.toNat < y.toNat := by simpa using h1
          have hlt2 : y.toNat < z.toNat := by simpa using h2
          have hne : ¬x.toNat = z.toNat := by omega
          rw [if_neg hne]
          simp only [decide_eq_true_eq]
          omega

theorem charsLe_antisymm (a b : List Char) (h1 : charsLe a b = true)
    (h2 : charsLe b a = true) : a = b := by
  induction a generalizing b with
  | nil =>
    cases b with
    | nil => rfl
    | cons y ys => simp [charsLe] at h2
  | cons x xs ih =>
    cases b with
    | nil => simp [charsLe] at h1
    | cons y ys =>
      simp only [charsLe] at h1 h2
      by_cases hxy : x.toNat = y.toNat
      · have hx : x = y := by
          have hcongr := congrArg Char.ofNat hxy
          rwa [Char.ofNat_toNat, Char.ofNat_toNat] at hcongr
        rw [if_pos hxy] at h1
        rw [if_pos hxy.symm] at h2
        rw [hx, ih ys (by simpa [hx] using h1) (by simpa [hx] using h2)]
      · have hyx : ¬y.toNat = x.toNat := fun h => hxy h.symm
        rw [if_neg hxy] at h1
        rw [if_neg hyx] at h2
        simp only [decide_eq_true_eq] at h1 h2
        omega

theorem strLeB_total (a b : String) : strLeB a b || strLeB b a := charsLe_total a.data b.data

theorem strLeB_trans (a b c : String) (h1 : strLeB a b = true) (h2 : strLeB b c = true) :
    strLeB a c = true := charsLe_trans a.data b.data c.data h1 h2

theorem strLeB_antisymm (a b : String) (h1 : strLeB a b = true) (h2 : strLeB b a = true) :
    a = b := by
  obtain ⟨da⟩ := a
  obtain ⟨db⟩ := b
  have : da = db := charsLe_antisymm da db h1 h2
  rw [this]

/-! ### Generic list utilities -/

theorem filterMap_eq_map_filter {α β : Type} (F : α → Option β) (dflt : β) (l : List α) :
    l.filterMap F = (l.filter (fun a => (F a).isSome)).map (fun a => (F a).getD dflt) := by
  induction l with
  | nil => rfl
  | cons a l ih => cases hfa : F a <;> simp [List.filterMap_cons, hfa, ih, List.filter_cons]

/-- Two sorted duplicate-free key lists with the same members are equal. -/
theorem sorted_nodup_key_ext {l₁ l₂ : List String}
    (hs₁ : l₁.Pairwise (fun a b => strLeB a b = true))
    (hs₂ : l₂.Pairwise (fun a b => strLeB a b = true))
    (hn₁ : l₁.Nodup) (hn₂ : l₂.Nodup) (hmem : ∀ k, k ∈ l₁ ↔ k ∈ l₂) : l₁ = l₂ := by
  haveI : IsAntisymm String (fun a b => strLeB a b = true) := ⟨strLeB_antisymm⟩
  have hperm : l₁.Perm l₂ := by
    apply List.perm_of_nodup_nodup_toFinset_eq hn₁ hn₂
    apply Finset.ext
    intro a
    simp only [List.mem_toFinset]
    exact hmem a
  exact List.eq_of_perm_of_sorted hperm hs₁ hs₂

theorem sorted_keys_mergeSort (l : List String) :
    (l.mergeSort strLeB).Pairwise (fun a b => strLeB a b = true) := by
  have h := @List.sorted_mergeSort String strLeB
    (fun a b c => strLeB_trans a b c) (fun a b => strLeB_total a b) l
  exact h

/-- Structural strong induction for `JSValue` through the nested lists. -/
theorem JSValue.my_induction (P : JSValue → Prop)
    (hnull : P .null) (hundef : P .undef)
    (hbool : ∀ b, P (.bool b)) (hnum : ∀ n, P (.num n)) (hstr : ∀ s, P (.str s))
    (harr : ∀ items, (∀ v, v ∈ items → P v) → P (.arr items))
    (hobj : ∀ fields, (∀ p, p ∈ fields → P p.2) → P (.obj fields)) :
    ∀ v, P v := by
  have H : ∀ n, ∀ v : JSValue, sizeOf v ≤ n → P v := by
    intro n
    induction n with
    | zero =>
      intro v hv
      exfalso
      cases v <;> simp_arith at hv
    | succ n ih =>
      intro v hv
      cases v with
      | null => exact hnull
      | undef => exact hundef
      | bool b => exact hbool b
      | num m => exact hnum m
      | str s => exact hstr s
      | arr items =>
        refine harr items (fun w hw => ih w ?_)
        have hlt := List.sizeOf_lt_of_mem hw
        simp only [JSValue.arr.sizeOf_spec] at hv
        omega
      | obj fields =>
        refine hobj fields (fun p hp => ih p.2 ?_)
        have hlt := List.sizeOf_lt_of_mem hp
        have hlt2 : sizeOf p.2 < sizeOf p := by
          obtain ⟨k, v⟩ := p
          simp only [Prod.mk.sizeOf_spec]
          omega
        simp only [JSValue.obj.sizeOf_spec] at hv
        omega
  exact fun v => H (sizeOf v) v le_rfl

theorem canonicalJSON_eq_none_iff (v : JSValue) : canonicalJSON v = none ↔ v = .undef := by
  cases v <;> simp [canonicalJSON]

theorem normItems_eq (items : List JSValue) : normItems items = items.map normalizeJS := by
  induction items with
  | nil => rfl
  | cons v vs ih => simp [normItems, ih]

theorem normFields_eq (fields : List (String × JSValue)) :
    normFields fields =
      (fields.filter (fun p => !isUndef p.2)).map (fun p => (p.1, normalizeJS p.2)) := by
  induction fields with
  | nil => rfl
  | cons p fs ih =>
    obtain ⟨k, v⟩ := p
    cases v <;> simp [normFields, isUndef, ih, List.filter_cons]

theorem wfItems_mem {items : List JSValue} (h : wfItems items = true) :
    ∀ v ∈ items, wellFormed v = true := by
  induction items with
  | nil => simp
  | cons w ws ih =>
    rw [wfItems, Bool.and_eq_true] at h
    intro v hv
    rcases List.mem_cons.mp hv with rfl | hv
    · exact h.1
    · exact ih h.2 v hv

theorem wfFields_mem {fields : List (String × JSValue)} (h : wfFields fields = true) :
    ∀ p ∈ fields, wellFormed p.2 = true := by
  induction fields with
  | nil => simp
  | cons q fs ih =>
    obtain ⟨k, v⟩ := q
    rw [wfFields, Bool.and_eq_true] at h
    intro p hp
    rcases List.mem_cons.mp hp with rfl | hp
    · exact h.1
    · exact ih h.2 p hp

theorem lookup_eq_some_of_mem_nodup {β : Type} {l : List (String × β)} {k : String} {v : β}
    (hn : (l.map Prod.fst).Nodup) (hmem : (k, v) ∈ l) : l.lookup k = some v := by
  induction l with
  | nil => simp at hmem
  | cons p fs ih =>
    obtain ⟨k', v'⟩ := p
    simp only [List.map_cons, List.nodup_cons] at hn
    rcases List.mem_cons.mp hmem with heq | hmem'
    · injection heq with h1 h2
      subst h1; subst h2
      simp [List.lookup_cons]
    · have hk : k ≠ k' := by
        rintro rfl
        exact hn.1 (List.mem_map.mpr ⟨(k, v), hmem', rfl⟩)
      have hbeq : (k == k') = false := by simpa using hk
      rw [List.lookup_cons]
      simp only [hbeq]
      exact ih hn.2 hmem'

theorem lookup_perm_nodup {β : Type} {l₁ l₂ : List (String × β)} (hp : l₁.Perm l₂)
    (hn : (l₁.map Prod.fst).Nodup) (k : String) : l₁.lookup k = l₂.lookup k := by
  cases h : l₂.lookup k with
  | some v =>
    exact lookup_eq_some_of_mem_nodup hn (hp.symm.subset (mem_of_lookup_eq_some h))
  | none =>
    rw [List.lookup_eq_none_iff] at h ⊢
    intro p hpmem
    exact h p (hp.subset hpmem)

theorem lookup_filter {β : Type} (P : String × β → Bool) {l : List (String × β)}
    (hn : (l.map Prod.fst).Nodup) (k : String) :
    (l.filter P).lookup k = (l.lookup k).bind (fun v => if P (k, v) then some v else none) := by
  induction l with
  | nil => rfl
  | cons p fs ih =>
    obtain ⟨k', v'⟩ := p
    simp only [List.map_cons, List.nodup_cons] at hn
    by_cases hk : k = k'
    · subst hk
      have habsent : fs.lookup k = none := by
        rw [List.lookup_eq_none_iff]
        intro q hq
        simp only [bne_iff_ne, ne_eq]
        rintro rfl
        exact hn.1 (List.mem_map.mpr ⟨q, hq, rfl⟩)
      have habsentF : (fs.filter P).lookup k = none := by
        rw [List.lookup_eq_none_iff]
        intro q hq
        exact (List.lookup_eq_none_iff.mp habsent) q (List.mem_of_mem_filter hq)
      cases hP : P (k, v') <;>
        simp [List.filter_cons, hP, List.lookup_cons, habsent, habsentF]
    · have hbeq : (k == k') = false := by simpa using hk
      cases hP : P (k', v') <;>
        simp [List.filter_cons, hP, List.lookup_cons, hbeq, ih hn.2]

theorem isUndef_iff (v : JSValue) : isUndef v = true ↔ v = .undef := by
  cases v <;> simp [isUndef]

/-- Serialization is invariant under normalization: sorting object keys and
dropping `undefined`-valued fields (recursively) does not change
`canonicalJSON`, provided every object has duplicate-free keys. -/
theorem canonicalJSON_normalizeJS (v : JSValue) :
    wellFormed v = true → canonicalJSON (normalizeJS v) = canonicalJSON v := by
  induction v using JSValue.my_induction with
  | hnull => intro _; rfl
  | hundef => intro _; rfl
  | hbool b => intro _; rfl
  | hnum n => intro _; rfl
  | hstr s => intro _; rfl
  | harr items ih =>
    intro hwf
    rw [wellFormed] at hwf
    rw [normalizeJS, canonicalJSON_arr_eq, canonicalJSON_arr_eq, normItems_eq]
    have hmapeq : (items.map normalizeJS).map (fun w => (canonicalJSON w).getD "") =
        items.map (fun w => (canonicalJSON w).getD "") := by
      rw [List.map_map]
      apply List.map_congr_left
      intro w hw
      simp only [Function.comp_apply]
      rw [ih w hw (wfItems_mem hwf w hw)]
    rw [hmapeq]
  | hobj fields ih =>
    intro hwf
    rw [wellFormed, Bool.and_eq_true, decide_eq_true_eq] at hwf
    obtain ⟨hnodup, hwff⟩ := hwf
    have hwmem := wfFields_mem hwff
    rw [normalizeJS, canonicalJSON_obj_eq, canonicalJSON_obj_eq]
    have hpermg : ((normFields fields).mergeSort (fun p q => strLeB p.1 q.1)).Perm
        (normFields fields) := List.mergeSort_perm _ _
    have hkeysnf : ((normFields fields).map Prod.fst).Nodup := by
      rw [normFields_eq, List.map_map]
      have hcomp : (Prod.fst ∘ fun p : String × JSValue => (p.1, normalizeJS p.2)) =
          Prod.fst := rfl
      rw [hcomp]
      exact List.Nodup.sublist (List.Sublist.map _ (List.filter_sublist _)) hnodup
    have hkeysg : (((normFields fields).mergeSort
        (fun p q => strLeB p.1 q.1)).map Prod.fst).Nodup :=
      ((hpermg.map Prod.fst).nodup_iff).mpr hkeysnf
    have hlookupg : ∀ k, ((normFields fields).mergeSort
        (fun p q => strLeB p.1 q.1)).lookup k =
        (fields.lookup k).bind
          (fun w => if isUndef w then none else some (normalizeJS w)) := by
      intro k
      rw [lookup_perm_nodup hpermg hkeysg k, normFields_eq, lookup_map_snd,
        lookup_filter _ hnodup]
      cases fields.lookup k with
      | none => rfl
      | some w => cases hIU : isUndef w <;> simp [hIU]
    have hFeq : ∀ k,
        (canonicalJSON ((((normFields fields).mergeSort
            (fun p q => strLeB p.1 q.1)).lookup k).getD .undef)).map
          (fun sv => jsonQuote k ++ ":" ++ sv) =
        (canonicalJSON ((fields.lookup k).getD .undef)).map
          (fun sv => jsonQuote k ++ ":" ++ sv) := by
      intro k
      rw [hlookupg k]
      cases hlk : fields.lookup k with
      | none => rfl
      | some w =>
        cases hIU : isUndef w
        · have hmemw := mem_of_lookup_eq_some hlk
          simp only [Option.some_bind, hIU, Bool.false_eq_true, if_false, Option.getD_some]
          rw [ih (k, w) hmemw (hwmem (k, w) hmemw)]
        · have hw : w = .undef := (isUndef_iff w).mp hIU
          subst hw
          simp [isUndef]
    congr 4
    rw [List.filterMap_congr (fun k _ => hFeq k)]
    rw [filterMap_eq_map_filter _ "", filterMap_eq_map_filter _ ""]
    congr 1
    apply sorted_nodup_key_ext
    · exact (sorted_keys_mergeSort _).filter _
    · exact (sorted_keys_mergeSort _).filter _
    · exact List.Nodup.filter _
        (((List.mergeSort_perm _ _).nodup_iff).mpr hkeysg)
    · exact List.Nodup.filter _
        (((List.mergeSort_perm _ _).nodup_iff).mpr hnodup)
    · intro k
      simp only [List.mem_filter, List.mem_mergeSort]
      have hcore : ((canonicalJSON ((fields.lookup k).getD .undef)).map
          (fun sv => jsonQuote k ++ ":" ++ sv)).isSome = true →
          k ∈ fields.map Prod.fst ∧
          k ∈ ((normFields fields).mergeSort
            (fun p q => strLeB p.1 q.1)).map Prod.fst := by
        intro hsome
        cases hlk : fields.lookup k with
        | none =>
          rw [hlk] at hsome
          simp [canonicalJSON] at hsome
        | some w =>
          rw [hlk] at hsome
          cases hIU : isUndef w
          · constructor
            · exact List.mem_map.mpr ⟨(k, w), mem_of_lookup_eq_some hlk, rfl⟩
            · have : ((normFields fields).mergeSort
                  (fun p q => strLeB p.1 q.1)).lookup k =
                  some (normalizeJS w) := by
                rw [hlookupg k, hlk]
                simp [hIU]
              exact List.mem_map.mpr
                ⟨(k, normalizeJS w), mem_of_lookup_eq_some this, rfl⟩
          · have hw : w = .undef := (isUndef_iff w).mp hIU
            subst hw
            simp [canonicalJSON] at hsome
      constructor
      · rintro ⟨hmemk, hsome⟩
        exact ⟨(hcore hsome).1, hsome⟩
      · rintro ⟨hmemk, hsome⟩
        exact ⟨(hcore hsome).2, hsome⟩

theorem isStr_iff (v : JSValue) : isStr v = true ↔ ∃ s, v = .str s := by
  cases v <;> simp [isStr]

theorem hashInput_of_not_str (v : JSValue) (h : isStr v = false) :
    hashInput v = (canonicalJSON v).getD "" := by
  cases v <;> first | rfl | simp [isStr] at h

theorem normalizeJS_eq_str {b : JSValue} {s : String} (h : normalizeJS b = .str s) :
    b = .str s := by
  cases b <;> simp [normalizeJS] at h <;> simp [h]

/-- Omitting an `undefined`-valued field does not change the serialization. -/
theorem undef_field_omitted (k : String) (fields : List (String × JSValue))
    (hwf : wellFormed (.obj fields) = true) (hk : k ∉ fields.map Prod.fst) :
    canonicalJSON (.obj ((k, .undef) :: fields)) = canonicalJSON (.obj fields) := by
  rw [wellFormed, Bool.and_eq_true, decide_eq_true_eq] at hwf
  have hwf2 : wellFormed (.obj ((k, .undef) :: fields)) = true := by
    rw [wellFormed, Bool.and_eq_true, decide_eq_true_eq]
    refine ⟨?_, ?_⟩
    · simp only [List.map_cons, List.nodup_cons]
      exact ⟨hk, hwf.1⟩
    · rw [wfFields]
      simp [wellFormed, hwf.2]
  have hwf1 : wellFormed (.obj fields) = true := by
    rw [wellFormed, Bool.and_eq_true, decide_eq_true_eq]
    exact hwf
  have h1 := canonicalJSON_normalizeJS _ hwf2
  have h2 := canonicalJSON_normalizeJS _ hwf1
  have hnorm : normalizeJS (.obj ((k, .undef) :: fields)) = normalizeJS (.obj fields) := by
    rw [normalizeJS, normalizeJS]
    simp [normFields]
  rw [← h1, hnorm, h2]

theorem sha256Bytes_length (msg : List Nat) : (sha256Bytes msg).length = 32 := by
  simp [sha256Bytes, wordBytes]

theorem wordBytes_lt (w : Nat) : ∀ b ∈ wordBytes w, b < 256 := by
  intro b hb
  simp only [wordBytes, List.mem_cons, List.not_mem_nil, or_false] at hb
  rcases hb with rfl | rfl | rfl | rfl <;> omega

theorem sha256Bytes_lt (msg : List Nat) : ∀ b ∈ sha256Bytes msg, b < 256 := by
  intro b hb
  simp only [sha256Bytes, List.mem_append] at hb
  rcases hb with ((((((h | h) | h) | h) | h) | h) | h) | h <;> exact wordBytes_lt _ b h

theorem bytesToHex_data (bs : List Nat) :
    (bytesToHex bs).data = bs.foldr (fun b acc => byteToHex b ++ acc) [] := rfl

theorem bytesToHex_length (bs : List Nat) : (bytesToHex bs).length = 2 * bs.length := by
  show (bytesToHex bs).data.length = 2 * bs.length
  rw [bytesToHex_data]
  induction bs with
  | nil => rfl
  | cons b bs ih =>
    simp only [List.foldr_cons, List.length_append, ih, List.length_cons]
    have h2 : (byteToHex b).length = 2 := rfl
    omega

theorem hexDigitChar_range (n : Nat) (h : n < 16) :
    (48 ≤ (hexDigitChar n).toNat ∧ (hexDigitChar n).toNat ≤ 57) ∨
    (97 ≤ (hexDigitChar n).toNat ∧ (hexDigitChar n).toNat ≤ 102) := by
  interval_cases n <;> decide

theorem bytesToHex_chars (bs : List Nat) (hbs : ∀ b ∈ bs, b < 256) :
    ∀ c ∈ (bytesToHex bs).data,
      (48 ≤ c.toNat ∧ c.toNat ≤ 57) ∨ (97 ≤ c.toNat ∧ c.toNat ≤ 102) := by
  rw [bytesToHex_data]
  induction bs with
  | nil => simp
  | cons b bs ih =>
    intro c hc
    simp only [List.foldr_cons, List.mem_append] at hc
    rcases hc with hc | hc
    · have hb : b < 256 := hbs b (List.mem_cons_self _ _)
      simp only [byteToHex, List.mem_cons, List.not_mem_nil, or_false] at hc
      rcases hc with rfl | rfl
      · exact hexDigitChar_range _ (by omega)
      · exact hexDigitChar_range _ (by omega)
    · exact ih (fun x hx => hbs x (List.mem_cons_of_mem _ hx)) c hc

theorem computeHash_length (v : JSValue) : (computeHash v).length = 64 := by
  rw [computeHash, sha256Hex, bytesToHex_length, sha256Bytes_length]

theorem computeHash_chars (v : JSValue) :
    ∀ c ∈ (computeHash v).data,
      (48 ≤ c.toNat ∧ c.toNat ≤ 57) ∨ (97 ≤ c.toNat ∧ c.toNat ≤ 102) := by
  rw [computeHash, sha256Hex]
  exact bytesToHex_chars _ (sha256Bytes_lt _)

/-- C1: `computeHash` matches the spec's reference definition.  For every
payload: a string payload is hashed as-is, any other payload is canonicalized
first; `null` serializes to the literal `null`; arrays serialize their items in
order; objects serialize under their lexicographically sorted key list;
`undefined`-valued object fields are omitted entirely; the canonical text is
UTF-8 encoded and SHA-256 hashed (the implementation meets the FIPS 180-4 test
vectors), emitted as 64 lowercase hex characters. -/
theorem C1_hash_matches_reference :
    (∀ s, computeHash (.str s) = sha256Hex (utf8Encode s))
    ∧ (∀ v, isStr v = false →
        computeHash v = sha256Hex (utf8Encode ((canonicalJSON v).getD "")))
    ∧ canonicalJSON .null = some "null"
    ∧ (∀ items, canonicalJSON (.arr items) =
        some ("[" ++ String.intercalate ","
          (items.map (fun w => (canonicalJSON w).getD "")) ++ "]"))
    ∧ (∀ fields, canonicalJSON (.obj fields) =
        some ("\x7b" ++ String.intercalate ","
          (((fields.map Prod.fst).mergeSort strLeB).filterMap (fun k =>
            (canonicalJSON ((fields.lookup k).getD .undef)).map
              (fun sv => jsonQuote k ++ ":" ++ sv))) ++ "\x7d"))
    ∧ (∀ l : List String, (l.mergeSort strLeB).Pairwise (fun a b => strLeB a b = true))
    ∧ (∀ k fields, wellFormed (.obj fields) = true → k ∉ fields.map Prod.fst →
        canonicalJSON (.obj ((k, .undef) :: fields)) = canonicalJSON (.obj fields))
    ∧ (∀ v, (computeHash v).length = 64 ∧
        ∀ c ∈ (computeHash v).data,
          (48 ≤ c.toNat ∧ c.toNat ≤ 57) ∨ (97 ≤ c.toNat ∧ c.toNat ≤ 102))
    ∧ sha256Hex (utf8Encode "") =
        "e3b0c44298fc1c149afbf4c8996fb92427ae41e4649b934ca495991b7852b855"
    ∧ sha256Hex (utf8Encode "abc") =
        "ba7816bf8f01cfea414140de5dae2223b00361a396177a9cb410ff61f20015ad" := by
  refine ⟨fun s => rfl, ?_, rfl, canonicalJSON_arr_eq, canonicalJSON_obj_eq,
    sorted_keys_mergeSort, fun k fields hwf hk => undef_field_omitted k fields hwf hk,
    fun v => ⟨computeHash_length v, computeHash_chars v⟩, by decide, by decide⟩
  intro v hv
  rw [computeHash, hashInput_of_not_str v hv]

/-- C1 witness: the undefined-field-omission part of
`C1_hash_matches_reference` at a concrete object. -/
theorem C1_hash_matches_reference_witness :
    canonicalJSON (.obj [("k", .undef), ("a", .num 1)]) =
      canonicalJSON (.obj [("a", .num 1)]) :=
  C1_hash_matches_reference.2.2.2.2.2.2.1 "k" [("a", .num 1)] (by decide) (by decide)

/-- C2: hashing is deterministic (`computeHash` is a function), and two
payloads that are equal up to object key ordering and up to presence of
`undefined`-valued object fields (i.e. with equal `normalizeJS` normal forms)
have the same `canonicalJSON` and the same `computeHash`, provided objects
carry duplicate-free keys as actual JS objects do. -/
theorem C2_hash_deterministic :
    (∀ P : JSValue, computeHash P = computeHash P)
    ∧ (∀ a b : JSValue, wellFormed a = true → wellFormed b = true →
        normalizeJS a = normalizeJS b →
        canonicalJSON a = canonicalJSON b ∧ computeHash a = computeHash b) := by
  refine ⟨fun P => rfl, ?_⟩
  intro a b hwa hwb hnorm
  have hcanon : canonicalJSON a = canonicalJSON b := by
    rw [← canonicalJSON_normalizeJS a hwa, ← canonicalJSON_normalizeJS b hwb, hnorm]
  refine ⟨hcanon, ?_⟩
  cases hs : isStr a
  · have hsb : isStr b = false := by
      cases hsb' : isStr b
      · rfl
      · exfalso
        obtain ⟨t, rfl⟩ := (isStr_iff b).mp hsb'
        have : a = .str t := normalizeJS_eq_str (by rw [hnorm]; rfl)
        rw [this] at hs
        simp [isStr] at hs
    rw [computeHash, computeHash, hashInput_of_not_str a hs,
      hashInput_of_not_str b hsb, hcanon]
  · obtain ⟨t, rfl⟩ := (isStr_iff a).mp hs
    have hb : b = .str t := normalizeJS_eq_str (by rw [← hnorm]; rfl)
    rw [hb]

unseal List.merge List.mergeSort in
/-- C2 witness: two concrete objects differing in key order and in an extra
`undefined`-valued field canonicalize and hash identically. -/
theorem C2_hash_deterministic_witness :
    canonicalJSON (.obj [("b", .num 2), ("a", .num 1), ("x", .undef)]) =
        canonicalJSON (.obj [("a", .num 1), ("b", .num 2)]) ∧
      computeHash (.obj [("b", .num 2), ("a", .num 1), ("x", .undef)]) =
        computeHash (.obj [("a", .num 1), ("b", .num 2)]) :=
  C2_hash_deterministic.2 _ _ (by decide) (by decide) rfl

/-- C9: canonicalization is not injective on arrays containing `undefined`:
`[undefined]` and `[]` both canonicalize to `"[]"` (and therefore hash
identically), and `[1, undefined]` canonicalizes to the non-JSON text `[1,]`. -/
theorem C9_array_undefined_collision :
    canonicalJSON (.arr [.undef]) = some "[]"
    ∧ canonicalJSON (.arr []) = some "[]"
    ∧ JSValue.arr [.undef] ≠ JSValue.arr []
    ∧ computeHash (.arr [.undef]) = computeHash (.arr [])
    ∧ canonicalJSON (.arr [.num 1, .undef]) = some "[1,]" := by
  refine ⟨rfl, rfl, ?_, rfl, rfl⟩
  intro h
  injection h with h2
  simp at h2

/-! ### Key-store lemmas -/

theorem findByKey_eq_none_iff {ρ : Type} (keyOf : ρ → String) (k : String) (l : List ρ) :
    findByKey keyOf k l = none ↔ ∀ x ∈ l, keyOf x ≠ k := by
  induction l with
  | nil => simp [findByKey]
  | cons x xs ih =>
    by_cases hx : keyOf x = k
    · simp [findByKey, hx]
    · simp [findByKey, hx, ih]

theorem findByKey_some {ρ : Type} {keyOf : ρ → String} {k : String} {l : List ρ} {x : ρ}
    (h : findByKey keyOf k l = some x) : x ∈ l ∧ keyOf x = k := by
  induction l with
  | nil => simp [findByKey] at h
  | cons y ys ih =>
    by_cases hy : keyOf y = k
    · rw [findByKey, if_pos hy] at h
      injection h with h
      subst h
      exact ⟨List.mem_cons_self _ _, hy⟩
    · rw [findByKey, if_neg hy] at h
      obtain ⟨hmem, hk⟩ := ih h
      exact ⟨List.mem_cons_of_mem _ hmem, hk⟩

theorem findByKey_putByKey_self {ρ : Type} (keyOf : ρ → String) (r : ρ) (l : List ρ) :
    findByKey keyOf (keyOf r) (putByKey keyOf r l) = some r := by
  induction l with
  | nil => simp [putByKey, findByKey]
  | cons x xs ih =>
    by_cases hx : keyOf x = keyOf r
    · simp [putByKey, hx, findByKey]
    · simp [putByKey, hx, findByKey, ih]

theorem findByKey_putByKey_ne {ρ : Type} (keyOf : ρ → String) (r : ρ) (l : List ρ)
    (k : String) (h : k ≠ keyOf r) :
    findByKey keyOf k (putByKey keyOf r l) = findByKey keyOf k l := by
  induction l with
  | nil => simp [putByKey, findByKey, Ne.symm h]
  | cons x xs ih =>
    by_cases hx : keyOf x = keyOf r
    · rw [putByKey, if_pos hx, findByKey, if_neg (fun he => h he.symm), findByKey,
        if_neg (hx ▸ fun he => h he.symm)]
    · rw [putByKey, if_neg hx, findByKey, findByKey]
      by_cases hxk : keyOf x = k
      · rw [if_pos hxk, if_pos hxk]
      · rw [if_neg hxk, if_neg hxk, ih]

theorem mem_putByKey_elim {ρ : Type} {keyOf : ρ → String} {r x : ρ} {l : List ρ}
    (h : x ∈ putByKey keyOf r l) : x = r ∨ x ∈ l := by
  induction l with
  | nil => simpa [putByKey] using h
  | cons y ys ih =>
    by_cases hy : keyOf y = keyOf r
    · rw [putByKey, if_pos hy] at h
      rcases List.mem_cons.mp h with rfl | h
      · exact Or.inl rfl
      · exact Or.inr (List.mem_cons_of_mem _ h)
    · rw [putByKey, if_neg hy] at h
      rcases List.mem_cons.mp h with rfl | h
      · exact Or.inr (List.mem_cons_self _ _)
      · rcases ih h with h | h
        · exact Or.inl h
        · exact Or.inr (List.mem_cons_of_mem _ h)

theorem mem_putByKey_of_mem {ρ : Type} {keyOf : ρ → String} {r x : ρ} {l : List ρ}
    (h : x ∈ l) (hk : keyOf x ≠ keyOf r) : x ∈ putByKey keyOf r l := by
  induction l with
  | nil => simp at h
  | cons y ys ih =>
    rcases List.mem_cons.mp h with rfl | h
    · rw [putByKey, if_neg hk]
      exact List.mem_cons_self _ _
    · by_cases hy : keyOf y = keyOf r
      · rw [putByKey, if_pos hy]
        exact List.mem_cons_of_mem _ h
      · rw [putByKey, if_neg hy]
        exact List.mem_cons_of_mem _ (ih h)

theorem putByKey_eq_self {ρ : Type} {keyOf : ρ → String} {r : ρ} {l : List ρ}
    (h : findByKey keyOf (keyOf r) l = some r) : putByKey keyOf r l = l := by
  induction l with
  | nil => simp [findByKey] at h
  | cons x xs ih =>
    by_cases hx : keyOf x = keyOf r
    · rw [findByKey, if_pos hx] at h
      injection h with h
      rw [putByKey, if_pos hx, h]
    · rw [findByKey, if_neg hx] at h
      rw [putByKey, if_neg hx, ih h]

theorem keys_putByKey_nodup {ρ : Type} {keyOf : ρ → String} (r : ρ) {l : List ρ}
    (hn : (l.map keyOf).Nodup) : ((putByKey keyOf r l).map keyOf).Nodup := by
  induction l with
  | nil => simp [putByKey]
  | cons x xs ih =>
    simp only [List.map_cons, List.nodup_cons] at hn
    by_cases hx : keyOf x = keyOf r
    · rw [putByKey, if_pos hx]
      simp only [List.map_cons, List.nodup_cons]
      exact ⟨hx ▸ hn.1, hn.2⟩
    · rw [putByKey, if_neg hx]
      simp only [List.map_cons, List.nodup_cons]
      refine ⟨?_, ih hn.2⟩
      intro hmem
      rcases List.mem_map.mp hmem with ⟨y, hy, hky⟩
      rcases mem_putByKey_elim hy with rfl | hy
      · exact hx hky.symm
      · exact hn.1 (List.mem_map.mpr ⟨y, hy, hky⟩)

theorem filter_key_eq_nil {ρ : Type} {keyOf : ρ → String} {k : String} {l : List ρ}
    (h : ∀ x ∈ l, keyOf x ≠ k) : l.filter (fun x => keyOf x = k) = [] := by
  rw [List.filter_eq_nil_iff]
  intro x hx
  simp [h x hx]

theorem filter_key_putByKey_self {ρ : Type} {keyOf : ρ → String} (r : ρ) {l : List ρ}
    (hn : (l.map keyOf).Nodup) :
    (putByKey keyOf r l).filter (fun x => keyOf x = keyOf r) = [r] := by
  induction l with
  | nil => simp [putByKey]
  | cons x xs ih =>
    simp only [List.map_cons, List.nodup_cons] at hn
    by_cases hx : keyOf x = keyOf r
    · rw [putByKey, if_pos hx, List.filter_cons]
      have hxs : xs.filter (fun y => keyOf y = keyOf r) = [] := by
        apply filter_key_eq_nil
        intro y hy hky
        exact hn.1 (hx ▸ hky ▸ List.mem_map.mpr ⟨y, hy, rfl⟩)
      simp [hxs]
    · rw [putByKey, if_neg hx, List.filter_cons]
      simp only [decide_eq_true_eq]
      rw [if_neg hx]
      exact ih hn.2

theorem findByKey_filter {ρ : Type} (keyOf : ρ → String) (k : String) (P : ρ → Bool)
    (l : List ρ) (hP : ∀ x, keyOf x = k → P x = true) :
    findByKey keyOf k (l.filter P) = findByKey keyOf k l := by
  induction l with
  | nil => rfl
  | cons x xs ih =>
    by_cases hx : keyOf x = k
    · rw [List.filter_cons, if_pos (hP x hx), findByKey, if_pos hx, findByKey, if_pos hx]
    · rw [findByKey, if_neg hx, ← ih]
      rw [List.filter_cons]
      by_cases hPx : P x = true
      · rw [if_pos hPx, findByKey, if_neg hx]
      · rw [if_neg hPx]

/-- C3: the content store deduplicates and `storeContent` is idempotent: both
stores of the same payload return the same hash (the payload's `computeHash`),
the second store leaves the content store bit-for-bit unchanged (no error —
`storeContent` is total), exactly one content record exists for that hash
(given the store's key invariant), `getContent` of the returned hash gives
back the payload, and `getContent` of a never-stored hash is `none`. -/
theorem C3_content_dedup_idempotent :
    (∀ db P kind,
      (storeContent db P kind).2 = computeHash P ∧
      (storeContent (storeContent db P kind).1 P kind).2 = (storeContent db P kind).2 ∧
      (storeContent (storeContent db P kind).1 P kind).1.content =
        (storeContent db P kind).1.content)
    ∧ (∀ db P kind, (db.content.map ContentRecord.hash).Nodup →
        ((storeContent db P kind).1.content.filter
          (fun r => r.hash = (storeContent db P kind).2)).length = 1)
    ∧ (∀ db P kind,
        getContent (storeContent db P kind).1 (storeContent db P kind).2 = some P)
    ∧ (∀ db h, (∀ r ∈ db.content, r.hash ≠ h) → getContent db h = none) := by
  refine ⟨fun db P kind => ⟨rfl, rfl, ?_⟩, fun db P kind hn => ?_, fun db P kind => ?_, fun db h hne => ?_⟩
  · show putByKey ContentRecord.hash ⟨computeHash P, P, kind⟩
      (putByKey ContentRecord.hash ⟨computeHash P, P, kind⟩ db.content) =
      putByKey ContentRecord.hash ⟨computeHash P, P, kind⟩ db.content
    apply putByKey_eq_self
    exact findByKey_putByKey_self ContentRecord.hash _ db.content
  · have h := @filter_key_putByKey_self ContentRecord ContentRecord.hash
      ⟨computeHash P, P, kind⟩ db.content hn
    show ((putByKey ContentRecord.hash ⟨computeHash P, P, kind⟩ db.content).filter
      (fun r => r.hash = computeHash P)).length = 1
    rw [show (fun r : ContentRecord => decide (r.hash = computeHash P)) =
      (fun r : ContentRecord => decide (r.hash =
        ContentRecord.hash ⟨computeHash P, P, kind⟩)) from rfl, h]
    rfl
  · show (findByKey ContentRecord.hash (computeHash P)
      (putByKey ContentRecord.hash ⟨computeHash P, P, kind⟩ db.content)).map
        ContentRecord.data = some P
    rw [show computeHash P = ContentRecord.hash ⟨computeHash P, P, kind⟩ from rfl,
      findByKey_putByKey_self]
    rfl
  · show (findByKey ContentRecord.hash h db.content).map ContentRecord.data = none
    rw [(findByKey_eq_none_iff _ _ _).mpr hne]
    rfl

/-- C3 witness: the dedup count at a concrete store. -/
theorem C3_content_dedup_idempotent_witness :
    ((storeContent emptyDB (.str "hello") "file").1.content.filter
      (fun r => r.hash = (storeContent emptyDB (.str "hello") "file").2)).length = 1 :=
  C3_content_dedup_idempotent.2.1 emptyDB (.str "hello") "file" (by decide)

/-- C10: the content store is keyed on hash alone and `storeContent` writes
unconditionally (`put`, not write-if-absent): re-storing the same payload
under a different kind returns the same hash, leaves exactly one record for
it whose `type` is the latest caller's kind and whose payload is unchanged,
and preserves the one-record-per-hash invariant. -/
theorem C10_content_kind_last_writer_wins :
    ∀ db P k1 k2, (db.content.map ContentRecord.hash).Nodup →
      (storeContent db P k1).2 = computeHash P ∧
      (storeContent (storeContent db P k1).1 P k2).2 = computeHash P ∧
      findByKey ContentRecord.hash (computeHash P)
        (storeContent (storeContent db P k1).1 P k2).1.content =
        some ⟨computeHash P, P, k2⟩ ∧
      ((storeContent (storeContent db P k1).1 P k2).1.content.filter
        (fun r => r.hash = computeHash P)).length = 1 ∧
      ((storeContent (storeContent db P k1).1 P k2).1.content.map
        ContentRecord.hash).Nodup ∧
      getContent (storeContent (storeContent db P k1).1 P k2).1 (computeHash P) =
        some P := by
  intro db P k1 k2 hn
  have hn1 : (((storeContent db P k1).1).content.map ContentRecord.hash).Nodup :=
    keys_putByKey_nodup _ hn
  have hfind : findByKey ContentRecord.hash (computeHash P)
      (storeContent (storeContent db P k1).1 P k2).1.content =
      some ⟨computeHash P, P, k2⟩ := by
    show findByKey ContentRecord.hash (computeHash P)
      (putByKey ContentRecord.hash ⟨computeHash P, P, k2⟩
        ((storeContent db P k1).1).content) = some ⟨computeHash P, P, k2⟩
    rw [show computeHash P = ContentRecord.hash ⟨computeHash P, P, k2⟩ from rfl,
      findByKey_putByKey_self]
  refine ⟨rfl, rfl, hfind, ?_, keys_putByKey_nodup _ hn1, ?_⟩
  · have h := @filter_key_putByKey_self ContentRecord ContentRecord.hash
      ⟨computeHash P, P, k2⟩ (storeContent db P k1).1.content hn1
    show ((putByKey ContentRecord.hash ⟨computeHash P, P, k2⟩
      ((storeContent db P k1).1).content).filter
        (fun r => r.hash = computeHash P)).length = 1
    rw [show (fun r : ContentRecord => decide (r.hash = computeHash P)) =
      (fun r : ContentRecord => decide (r.hash =
        ContentRecord.hash ⟨computeHash P, P, k2⟩)) from rfl, h]
    rfl
  · show (findByKey ContentRecord.hash (computeHash P)
      (storeContent (storeContent db P k1).1 P k2).1.content).map
        ContentRecord.data = some P
    rw [hfind]
    rfl

/-- C10 witness: the replaced kind at a concrete double store. -/
theorem C10_content_kind_last_writer_wins_witness :
    findByKey ContentRecord.hash (computeHash (.str "x"))
      (storeContent (storeContent emptyDB (.str "x") "file").1 (.str "x") "user").1.content =
      some ⟨computeHash (.str "x"), .str "x", "user"⟩ :=
  (C10_content_kind_last_writer_wins emptyDB (.str "x") "file" "user" (by decide)).2.2.1

/-- C6: `deleteTrifle(id)` removes exactly that pointer and every version
whose `trifle_id` is that id, and nothing else changes: content blobs
(even those only referenced by the deleted records), users, other trifles,
and other pointers' versions all survive unchanged. -/
theorem C6_delete_cascade_frame :
    ∀ db id,
      (deleteTrifle db id).content = db.content ∧
      (deleteTrifle db id).users = db.users ∧
      (deleteTrifle db id).trifles = db.trifles.filter (fun t => t.id ≠ id) ∧
      (deleteTrifle db id).versions = db.versions.filter (fun v => v.trifle_id ≠ id) ∧
      getTrifle (deleteTrifle db id) id = none ∧
      getVersions (deleteTrifle db id) id = [] ∧
      (∀ t ∈ db.trifles, t.id ≠ id → t ∈ (deleteTrifle db id).trifles) ∧
      (∀ v ∈ db.versions, v.trifle_id ≠ id → v ∈ (deleteTrifle db id).versions) ∧
      (deleteTrifle db id).nextVersionId = db.nextVersionId := by
  intro db id
  refine ⟨rfl, rfl, rfl, rfl, ?_, ?_, ?_, ?_, rfl⟩
  · show findByKey TrifleRecord.id id (db.trifles.filter (fun t => t.id ≠ id)) = none
    rw [findByKey_eq_none_iff]
    intro t ht
    have := List.of_mem_filter ht
    simpa using this
  · show ((db.versions.filter (fun v => v.trifle_id ≠ id)).filter
      (fun v => v.trifle_id = id)).mergeSort (fun a b => decide (b.timestamp ≤ a.timestamp)) = []
    have hnil : (db.versions.filter (fun v => v.trifle_id ≠ id)).filter
        (fun v => v.trifle_id = id) = [] := by
      rw [List.filter_eq_nil_iff]
      intro v hv
      have := List.of_mem_filter hv
      simpa using this
    rw [hnil, List.mergeSort_nil]
  · intro t ht hne
    exact List.mem_filter.mpr ⟨ht, by simpa using hne⟩
  · intro v hv hne
    exact List.mem_filter.mpr ⟨hv, by simpa using hne⟩

/-- C6 witness: frame conditions applied at a concrete store. -/
theorem C6_delete_cascade_frame_witness :
    getTrifle (deleteTrifle
      ⟨[], [], [⟨"trifle_a", "user_u", "h1", 0, 1⟩], [⟨1, "trifle_a", "h1", 0, "session"⟩], 2⟩
      "trifle_a") "trifle_a" = none ∧
    (⟨"trifle_a", "user_u", "h1", 0, 1⟩ : TrifleRecord) ∈
      (⟨[], [], [⟨"trifle_a", "user_u", "h1", 0, 1⟩], [], 2⟩ : DB).trifles :=
  ⟨(C6_delete_cascade_frame
      ⟨[], [], [⟨"trifle_a", "user_u", "h1", 0, 1⟩], [⟨1, "trifle_a", "h1", 0, "session"⟩], 2⟩
      "trifle_a").2.2.2.2.1, List.mem_cons_self _ _⟩

/-- C7: updating an absent pointer fails atomically, before anything is
written: `updateUser`/`updateTrifle` first look the pointer up and throw the
source's not-found error, producing no new state (the model returns `.error`
carrying no store, mirroring that the JS throws before its first write).
When the pointer exists, the update succeeds and is a single replace of that
one record: the stored blob is `put` into content, the pointer record is
replaced in place, every other user/trifle record and every other store is
untouched. -/
theorem C7_update_absent_fails_atomically :
    (∀ db id data now, getUser db id = none →
      updateUser db id data now = .error "User not found")
    ∧ (∀ db id data now, getTrifle db id = none →
      updateTrifle db id data now = .error "Trifle not found")
    ∧ (∀ db id data now u0, getUser db id = some u0 →
        ∃ db' u', updateUser db id data now = .ok (db', u') ∧
          u' = { u0 with current_hash := computeHash data, last_modified := now,
                         logical_clock := u0.logical_clock + 1 } ∧
          db'.users = putByKey UserRecord.id u' db.users ∧
          getUser db' id = some u' ∧
          (∀ u ∈ db.users, u.id ≠ id → u ∈ db'.users) ∧
          db'.trifles = db.trifles ∧ db'.versions = db.versions ∧
          db'.nextVersionId = db.nextVersionId ∧
          db'.content = putByKey ContentRecord.hash
            ⟨computeHash data, data, "user"⟩ db.content)
    ∧ (∀ db id data now t0, getTrifle db id = some t0 →
        ∃ db' t', updateTrifle db id data now = .ok (db', t') ∧
          t' = { t0 with current_hash := computeHash data, last_modified := now,
                         logical_clock := t0.logical_clock + 1 } ∧
          db'.trifles = putByKey TrifleRecord.id t' db.trifles ∧
          getTrifle db' id = some t' ∧
          (∀ t ∈ db.trifles, t.id ≠ id → t ∈ db'.trifles) ∧
          db'.users = db.users ∧ db'.versions = db.versions ∧
          db'.nextVersionId = db.nextVersionId ∧
          db'.content = putByKey ContentRecord.hash
            ⟨computeHash data, data, "trifle"⟩ db.content) := by
  refine ⟨fun db id data now h => by rw [updateUser, h],
    fun db id data now h => by rw [updateTrifle, h], ?_, ?_⟩
  · intro db id data now u0 h
    have hid : u0.id = id := (findByKey_some h).2
    refine ⟨{ db with content := putByKey ContentRecord.hash ⟨computeHash data, data, "user"⟩ db.content, users := putByKey UserRecord.id { u0 with current_hash := computeHash data, last_modified := now, logical_clock := u0.logical_clock + 1 } db.users }, { u0 with current_hash := computeHash data, last_modified := now, logical_clock := u0.logical_clock + 1 }, ?_, rfl, rfl, ?_, ?_, rfl, rfl, rfl, rfl⟩
    · rw [updateUser, h]
      rfl
    · show findByKey UserRecord.id id (putByKey UserRecord.id { u0 with current_hash := computeHash data, last_modified := now, logical_clock := u0.logical_clock + 1 } db.users) = some { u0 with current_hash := computeHash data, last_modified := now, logical_clock := u0.logical_clock + 1 }
      rw [← hid]
      exact findByKey_putByKey_self UserRecord.id { u0 with current_hash := computeHash data, last_modified := now, logical_clock := u0.logical_clock + 1 } db.users
    · intro u hu hne
      exact mem_putByKey_of_mem hu (by simpa [hid] using hne)
  · intro db id data now t0 h
    have hid : t0.id = id := (findByKey_some h).2
    refine ⟨{ db with content := putByKey ContentRecord.hash ⟨computeHash data, data, "trifle"⟩ db.content, trifles := putByKey TrifleRecord.id { t0 with current_hash := computeHash data, last_modified := now, logical_clock := t0.logical_clock + 1 } db.trifles }, { t0 with current_hash := computeHash data, last_modified := now, logical_clock := t0.logical_clock + 1 }, ?_, rfl, rfl, ?_, ?_, rfl, rfl, rfl, rfl⟩
    · rw [updateTrifle, h]
      rfl
    · show findByKey TrifleRecord.id id (putByKey TrifleRecord.id { t0 with current_hash := computeHash data, last_modified := now, logical_clock := t0.logical_clock + 1 } db.trifles) = some { t0 with current_hash := computeHash data, last_modified := now, logical_clock := t0.logical_clock + 1 }
      rw [← hid]
      exact findByKey_putByKey_self TrifleRecord.id { t0 with current_hash := computeHash data, last_modified := now, logical_clock := t0.logical_clock + 1 } db.trifles
    · intro t ht hne
      exact mem_putByKey_of_mem ht (by simpa [hid] using hne)

/-- C7 witness: the not-found error on an empty store. -/
theorem C7_update_absent_fails_atomically_witness :
    updateTrifle emptyDB "trifle_a" (.str "d") 7 = .error "Trifle not found" :=
  C7_update_absent_fails_atomically.2.1 emptyDB "trifle_a" (.str "d") 7 rfl

theorem findByKey_append {ρ : Type} (keyOf : ρ → String) (k : String) (l₁ l₂ : List ρ) :
    findByKey keyOf k (l₁ ++ l₂) = (findByKey keyOf k l₁).or (findByKey keyOf k l₂) := by
  induction l₁ with
  | nil => simp [findByKey]
  | cons x xs ih =>
    by_cases hx : keyOf x = k
    · simp [findByKey, hx]
    · simp [findByKey, hx, ih]

theorem cleanupVersions_users (db : DB) (tid : String) (keep : Nat) :
    (cleanupVersions db tid keep).1.users = db.users := by
  rw [cleanupVersions]
  split <;> rfl

theorem cleanupVersions_trifles (db : DB) (tid : String) (keep : Nat) :
    (cleanupVersions db tid keep).1.trifles = db.trifles := by
  rw [cleanupVersions]
  split <;> rfl

theorem cleanupVersions_content (db : DB) (tid : String) (keep : Nat) :
    (cleanupVersions db tid keep).1.content = db.content := by
  rw [cleanupVersions]
  split <;> rfl

theorem except_map_fst_ok {α β γ : Type} {e : Except γ (α × β)} {a : α}
    (h : e.map Prod.fst = .ok a) : ∃ p, e = .ok p ∧ p.1 = a := by
  cases e with
  | error x => simp [Except.map] at h
  | ok p =>
    refine ⟨p, rfl, ?_⟩
    simpa [Except.map] using h

theorem createUser_ok_elim {db db' : DB} {id name : String} {now : Nat} {u : UserRecord}
    (h : createUser db id name now = .ok (db', u)) :
    u.logical_clock = 1 ∧ u.id = id ∧
    db'.users = db.users ++ [u] ∧ db'.trifles = db.trifles ∧
    db'.versions = db.versions ∧ db'.nextVersionId = db.nextVersionId := by
  rw [createUser] at h
  split at h
  · exact absurd h (by simp)
  · injection h with hpair
    injection hpair with hdb hu
    subst hu
    subst hdb
    exact ⟨rfl, rfl, rfl, rfl, rfl, rfl⟩

theorem updateUser_ok_elim {db db' : DB} {id : String} {data : JSValue} {now : Nat}
    {u : UserRecord} (h : updateUser db id data now = .ok (db', u)) :
    ∃ u0, getUser db id = some u0 ∧ u0.id = id ∧
      u = { u0 with current_hash := computeHash data, last_modified := now,
                    logical_clock := u0.logical_clock + 1 } ∧
      db'.users = putByKey UserRecord.id u db.users ∧ db'.trifles = db.trifles ∧
      db'.versions = db.versions ∧ db'.nextVersionId = db.nextVersionId := by
  cases hg : getUser db id with
  | none => rw [updateUser, hg] at h; exact absurd h (by simp)
  | some u0 =>
    rw [updateUser, hg] at h
    injection h with hpair
    injection hpair with hdb hu
    subst hu
    subst hdb
    exact ⟨u0, rfl, (findByKey_some hg).2, rfl, rfl, rfl, rfl, rfl⟩

theorem createTrifle_ok_elim {db db' : DB} {id oid name desc : String} {now : Nat}
    {t : TrifleRecord} (h : createTrifle db id oid name desc now = .ok (db', t)) :
    t.logical_clock = 1 ∧ t.id = id ∧
    db'.users = db.users ∧ db'.trifles = db.trifles ++ [t] ∧
    db'.versions = db.versions ∧ db'.nextVersionId = db.nextVersionId := by
  rw [createTrifle] at h
  split at h
  · exact absurd h (by simp)
  · injection h with hpair
    injection hpair with hdb ht
    subst ht
    subst hdb
    exact ⟨rfl, rfl, rfl, rfl, rfl, rfl⟩

theorem updateTrifle_ok_elim {db db' : DB} {id : String} {data : JSValue} {now : Nat}
    {t : TrifleRecord} (h : updateTrifle db id data now = .ok (db', t)) :
    ∃ t0, getTrifle db id = some t0 ∧ t0.id = id ∧
      t = { t0 with current_hash := computeHash data, last_modified := now,
                    logical_clock := t0.logical_clock + 1 } ∧
      db'.trifles = putByKey TrifleRecord.id t db.trifles ∧ db'.users = db.users ∧
      db'.versions = db.versions ∧ db'.nextVersionId = db.nextVersionId := by
  cases hg : getTrifle db id with
  | none => rw [updateTrifle, hg] at h; exact absurd h (by simp)
  | some t0 =>
    rw [updateTrifle, hg] at h
    injection h with hpair
    injection hpair with hdb ht
    subst ht
    subst hdb
    exact ⟨t0, rfl, (findByKey_some hg).2, rfl, rfl, rfl, rfl, rfl⟩

theorem saveCurrentFile_ok_elim {db db' : DB} {tid path content : String} {now : Nat}
    (h : saveCurrentFile db tid path content now = .ok db') :
    ∃ td t', updateTrifle (storeContent db (.str content) "file").1 tid td now =
      .ok (db', t') := by
  rw [saveCurrentFile] at h
  cases hg : getTrifleData (storeContent db (.str content) "file").1 tid with
  | none => rw [hg] at h; exact absurd h (by simp)
  | some trifleData =>
    rw [hg] at h
    obtain ⟨p, hp, hp1⟩ := except_map_fst_ok h
    subst hp1
    exact ⟨_, p.2, hp⟩

theorem updateUser_clock_mono {db db' : DB} {id₀ : String} {data : JSValue} {now : Nat}
    {u : UserRecord} (h : updateUser db id₀ data now = .ok (db', u)) (id : String) :
    ∀ n n', userClock db id = some n → userClock db' id = some n' → n ≤ n' := by
  obtain ⟨u0, hg, hid0, hu, husers, -, -, -⟩ := updateUser_ok_elim h
  intro n n' h1 h2
  by_cases hidq : id = id₀
  · subst hidq
    rw [userClock, hg, Option.map_some'] at h1
    injection h1 with h1
    have hgetu : getUser db' id = some u := by
      rw [getUser, husers, ← show UserRecord.id u = id from by rw [hu]; exact hid0]
      exact findByKey_putByKey_self UserRecord.id u db.users
    rw [userClock, hgetu, Option.map_some'] at h2
    injection h2 with h2
    have hcl : u.logical_clock = u0.logical_clock + 1 := by rw [hu]
    omega
  · have : getUser db' id = getUser db id := by
      rw [getUser, husers, findByKey_putByKey_ne]
      · rfl
      · rw [hu]
        exact fun he => hidq (he.trans hid0)
    rw [userClock, this, ← userClock, h1] at h2
    injection h2 with h2
    omega

theorem updateTrifle_clock_mono {db db' : DB} {id₀ : String} {data : JSValue} {now : Nat}
    {t : TrifleRecord} (h : updateTrifle db id₀ data now = .ok (db', t)) (id : String) :
    ∀ n n', trifleClock db id = some n → trifleClock db' id = some n' → n ≤ n' := by
  obtain ⟨t0, hg, hid0, ht, htrifles, -, -, -⟩ := updateTrifle_ok_elim h
  intro n n' h1 h2
  by_cases hidq : id = id₀
  · subst hidq
    rw [trifleClock, hg, Option.map_some'] at h1
    injection h1 with h1
    have hgett : getTrifle db' id = some t := by
      rw [getTrifle, htrifles, ← show TrifleRecord.id t = id from by rw [ht]; exact hid0]
      exact findByKey_putByKey_self TrifleRecord.id t db.trifles
    rw [trifleClock, hgett, Option.map_some'] at h2
    injection h2 with h2
    have hcl : t.logical_clock = t0.logical_clock + 1 := by rw [ht]
    omega
  · have : getTrifle db' id = getTrifle db id := by
      rw [getTrifle, htrifles, findByKey_putByKey_ne]
      · rfl
      · rw [ht]
        exact fun he => hidq (he.trans hid0)
    rw [trifleClock, this, ← trifleClock, h1] at h2
    injection h2 with h2
    omega

/-- A single local operation never decreases the logical clock of a user
pointer that exists before and after it. -/
theorem step_user_clock_mono {db db' : DB} (hs : Step db db') (id : String) :
    ∀ n n', userClock db id = some n → userClock db' id = some n' → n ≤ n' := by
  have triv : ∀ (a : DB) (h : userClock a id = userClock db id),
      ∀ n n', userClock db id = some n → userClock a id = some n' → n ≤ n' := by
    intro a ha n n' h1 h2
    rw [ha, h1] at h2
    injection h2 with h2
    omega
  cases hs with
  | store data ty => exact triv _ rfl
  | cuser db2 idc name now u hop =>
    obtain ⟨hcl, hidc, husers, -, -, -⟩ := createUser_ok_elim hop
    intro n n' h1 h2
    rw [userClock, getUser] at h1 h2
    rw [husers, findByKey_append] at h2
    cases hf : findByKey UserRecord.id id db.users with
    | none => rw [hf, Option.map_none'] at h1; exact absurd h1 (by simp)
    | some u0 =>
      rw [hf, Option.map_some'] at h1
      rw [hf] at h2
      rw [show (some u0).or (findByKey UserRecord.id id [u]) = some u0 from rfl,
        Option.map_some'] at h2
      injection h1 with h1
      injection h2 with h2
      omega
  | uuser db2 id₀ data now u hop => exact updateUser_clock_mono hop id
  | ctrifle db2 idc oid name desc now t hop =>
    obtain ⟨-, -, husers, -, -, -⟩ := createTrifle_ok_elim hop
    refine triv _ ?_
    rw [userClock, getUser, husers]
    rfl
  | utrifle db2 id₀ data now t hop =>
    obtain ⟨t0, -, -, -, -, husers, -, -⟩ := updateTrifle_ok_elim hop
    refine triv _ ?_
    rw [userClock, getUser, husers]
    rfl
  | dtrifle id₀ => exact triv _ rfl
  | cversion tid hash label now => exact triv _ rfl
  | cleanup tid keep =>
    refine triv _ ?_
    rw [userClock, getUser, cleanupVersions_users]
    rfl
  | save db2 tid path content now hop =>
    obtain ⟨td, t', hu⟩ := saveCurrentFile_ok_elim hop
    obtain ⟨t0, -, -, -, -, husers, -, -⟩ := updateTrifle_ok_elim hu
    refine triv _ ?_
    rw [userClock, getUser, husers]
    rfl

/-- A single local operation never decreases the logical clock of a trifle
pointer that exists before and after it. -/
theorem step_trifle_clock_mono {db db' : DB} (hs : Step db db') (id : String) :
    ∀ n n', trifleClock db id = some n → trifleClock db' id = some n' → n ≤ n' := by
  have triv : ∀ (a : DB) (h : trifleClock a id = trifleClock db id),
      ∀ n n', trifleClock db id = some n → trifleClock a id = some n' → n ≤ n' := by
    intro a ha n n' h1 h2
    rw [ha, h1] at h2
    injection h2 with h2
    omega
  cases hs with
  | store data ty => exact triv _ rfl
  | cuser db2 idc name now u hop =>
    obtain ⟨-, -, -, htr, -, -⟩ := createUser_ok_elim hop
    refine triv _ ?_
    rw [trifleClock, getTrifle, htr]
    rfl
  | uuser db2 id₀ data now u hop =>
    obtain ⟨u0, -, -, -, -, htr, -, -⟩ := updateUser_ok_elim hop
    refine triv _ ?_
    rw [trifleClock, getTrifle, htr]
    rfl
  | ctrifle db2 idc oid name desc now t hop =>
    obtain ⟨hcl, hidc, -, htr, -, -⟩ := createTrifle_ok_elim hop
    intro n n' h1 h2
    rw [trifleClock, getTrifle] at h1 h2
    rw [htr, findByKey_append] at h2
    cases hf : findByKey TrifleRecord.id id db.trifles with
    | none => rw [hf, Option.map_none'] at h1; exact absurd h1 (by simp)
    | some t0 =>
      rw [hf, Option.map_some'] at h1
      rw [hf] at h2
      rw [show (some t0).or (findByKey TrifleRecord.id id [t]) = some t0 from rfl,
        Option.map_some'] at h2
      injection h1 with h1
      injection h2 with h2
      omega
  | utrifle db2 id₀ data now t hop => exact updateTrifle_clock_mono hop id
  | dtrifle id₀ =>
    intro n n' h1 h2
    by_cases hidq : id = id₀
    · subst hidq
      have : getTrifle (deleteTrifle db id) id = none := by
        rw [getTrifle]
        show findByKey TrifleRecord.id id (db.trifles.filter (fun t => t.id ≠ id)) = none
        rw [findByKey_eq_none_iff]
        intro t ht
        simpa using List.of_mem_filter ht
      rw [trifleClock, this, Option.map_none'] at h2
      exact absurd h2 (by simp)
    · have : getTrifle (deleteTrifle db id₀) id = getTrifle db id := by
        rw [getTrifle]
        show findByKey TrifleRecord.id id (db.trifles.filter (fun t => t.id ≠ id₀)) = _
        rw [findByKey_filter]
        · rfl
        · intro x hx
          simp [hx, hidq]
      rw [trifleClock] at h1
      rw [trifleClock, this, h1] at h2
      injection h2 with h2
      omega
  | cversion tid hash label now => exact triv _ rfl
  | cleanup tid keep =>
    refine triv _ ?_
    rw [trifleClock, getTrifle, cleanupVersions_trifles]
    rfl
  | save db2 tid path content now hop =>
    obtain ⟨td, t', hu⟩ := saveCurrentFile_ok_elim hop
    intro n n' h1 h2
    exact updateTrifle_clock_mono hu id n n' h1 h2

theorem step_preserves_ClocksGE1 {db db' : DB} (hs : Step db db') (hc : ClocksGE1 db) :
    ClocksGE1 db' := by
  cases hs with
  | store data ty => exact hc
  | cuser db2 idc name now u hop =>
    obtain ⟨hcl, -, husers, htr, -, -⟩ := createUser_ok_elim hop
    refine ⟨?_, ?_⟩
    · rw [husers]
      intro x hx
      rcases List.mem_append.mp hx with hx | hx
      · exact hc.1 x hx
      · rcases List.mem_cons.mp hx with rfl | hx
        · omega
        · simp at hx
    · rw [htr]
      exact hc.2
  | uuser db2 id₀ data now u hop =>
    obtain ⟨u0, hg, -, hu, husers, htr, -, -⟩ := updateUser_ok_elim hop
    refine ⟨?_, ?_⟩
    · rw [husers]
      intro x hx
      rcases mem_putByKey_elim hx with rfl | hx
      · rw [hu]
        show 1 ≤ u0.logical_clock + 1
        omega
      · exact hc.1 x hx
    · rw [htr]
      exact hc.2
  | ctrifle db2 idc oid name desc now t hop =>
    obtain ⟨hcl, -, husers, htr, -, -⟩ := createTrifle_ok_elim hop
    refine ⟨?_, ?_⟩
    · rw [husers]
      exact hc.1
    · rw [htr]
      intro x hx
      rcases List.mem_append.mp hx with hx | hx
      · exact hc.2 x hx
      · rcases List.mem_cons.mp hx with rfl | hx
        · omega
        · simp at hx
  | utrifle db2 id₀ data now t hop =>
    obtain ⟨t0, hg, -, ht, htr, husers, -, -⟩ := updateTrifle_ok_elim hop
    refine ⟨?_, ?_⟩
    · rw [husers]
      exact hc.1
    · rw [htr]
      intro x hx
      rcases mem_putByKey_elim hx with rfl | hx
      · rw [ht]
        show 1 ≤ t0.logical_clock + 1
        omega
      · exact hc.2 x hx
  | dtrifle id₀ =>
    refine ⟨hc.1, ?_⟩
    intro x hx
    exact hc.2 x (List.mem_of_mem_filter hx)
  | cversion tid hash label now => exact hc
  | cleanup tid keep =>
    refine ⟨?_, ?_⟩
    · rw [cleanupVersions_users]
      exact hc.1
    · rw [cleanupVersions_trifles]
      exact hc.2
  | save db2 tid path content now hop =>
    obtain ⟨td, t', hu⟩ := saveCurrentFile_ok_elim hop
    obtain ⟨t0, hg, -, ht, htr, husers, -, -⟩ := updateTrifle_ok_elim hu
    refine ⟨?_, ?_⟩
    · rw [husers]
      exact hc.1
    · rw [htr]
      intro x hx
      rcases mem_putByKey_elim hx with rfl | hx
      · rw [ht]
        show 1 ≤ t0.logical_clock + 1
        omega
      · exact hc.2 x hx

theorem steps_user_clock_mono (id : String) {db db' : DB}
    (h : Relation.ReflTransGen
      (fun a b => Step a b ∧ (userClock a id).isSome ∧ (userClock b id).isSome) db db') :
    ∀ n n', userClock db id = some n → userClock db' id = some n' → n ≤ n' := by
  induction h with
  | refl =>
    intro n n' h1 h2
    rw [h1] at h2
    injection h2 with h2
    omega
  | tail hchain hstep ih =>
    intro n n' h1 h2
    obtain ⟨hs, hsa, hsb⟩ := hstep
    obtain ⟨m, hm⟩ := Option.isSome_iff_exists.mp hsa
    exact le_trans (ih n m h1 hm) (step_user_clock_mono hs id m n' hm h2)

theorem steps_trifle_clock_mono (id : String) {db db' : DB}
    (h : Relation.ReflTransGen
      (fun a b => Step a b ∧ (trifleClock a id).isSome ∧ (trifleClock b id).isSome) db db') :
    ∀ n n', trifleClock db id = some n → trifleClock db' id = some n' → n ≤ n' := by
  induction h with
  | refl =>
    intro n n' h1 h2
    rw [h1] at h2
    injection h2 with h2
    omega
  | tail hchain hstep ih =>
    intro n n' h1 h2
    obtain ⟨hs, hsa, hsb⟩ := hstep
    obtain ⟨m, hm⟩ := Option.isSome_iff_exists.mp hsa
    exact le_trans (ih n m h1 hm) (step_trifle_clock_mono hs id m n' hm h2)

/-- C4: every pointer is created with `logical_clock = 1`; every local
mutation (`updateUser` / `updateTrifle`) bumps the clock by exactly one while
replacing `current_hash` and setting `last_modified`; across every local
operation (`Step`), and every sequence of local operations along which the
pointer exists, the clock is non-decreasing; and clocks are at least 1,
an invariant that holds of the empty store and is preserved by every step. -/
theorem C4_logical_clock_invariant :
    (∀ db id name now db' u, createUser db id name now = .ok (db', u) →
        u.logical_clock = 1)
    ∧ (∀ db id oid name desc now db' t,
        createTrifle db id oid name desc now = .ok (db', t) → t.logical_clock = 1)
    ∧ (∀ db id data now db' u, updateUser db id data now = .ok (db', u) →
        ∃ u0, getUser db id = some u0 ∧ u.logical_clock = u0.logical_clock + 1 ∧
          u.current_hash = computeHash data ∧ u.last_modified = now)
    ∧ (∀ db id data now db' t, updateTrifle db id data now = .ok (db', t) →
        ∃ t0, getTrifle db id = some t0 ∧ t.logical_clock = t0.logical_clock + 1 ∧
          t.current_hash = computeHash data ∧ t.last_modified = now)
    ∧ (∀ db db', Step db db' → ∀ id n n',
        userClock db id = some n → userClock db' id = some n' → n ≤ n')
    ∧ (∀ db db', Step db db' → ∀ id n n',
        trifleClock db id = some n → trifleClock db' id = some n' → n ≤ n')
    ∧ (∀ id db db', Relation.ReflTransGen
        (fun a b => Step a b ∧ (userClock a id).isSome ∧ (userClock b id).isSome) db db' →
        ∀ n n', userClock db id = some n → userClock db' id = some n' → n ≤ n')
    ∧ (∀ id db db', Relation.ReflTransGen
        (fun a b => Step a b ∧ (trifleClock a id).isSome ∧ (trifleClock b id).isSome) db db' →
        ∀ n n', trifleClock db id = some n → trifleClock db' id = some n' → n ≤ n')
    ∧ ClocksGE1 emptyDB
    ∧ (∀ db db', Step db db' → ClocksGE1 db → ClocksGE1 db')
    ∧ (∀ db id n, ClocksGE1 db → userClock db id = some n → 1 ≤ n)
    ∧ (∀ db id n, ClocksGE1 db → trifleClock db id = some n → 1 ≤ n) := by
  refine ⟨?_, ?_, ?_, ?_, ?_, ?_, ?_, ?_, ?_, ?_, ?_, ?_⟩
  · intro db id name now db' u h
    exact (createUser_ok_elim h).1
  · intro db id oid name desc now db' t h
    exact (createTrifle_ok_elim h).1
  · intro db id data now db' u h
    obtain ⟨u0, hg, -, hu, -, -, -, -⟩ := updateUser_ok_elim h
    exact ⟨u0, hg, by rw [hu], by rw [hu], by rw [hu]⟩
  · intro db id data now db' t h
    obtain ⟨t0, hg, -, ht, -, -, -, -⟩ := updateTrifle_ok_elim h
    exact ⟨t0, hg, by rw [ht], by rw [ht], by rw [ht]⟩
  · intro db db' hs id n n' h1 h2
    exact step_user_clock_mono hs id n n' h1 h2
  · intro db db' hs id n n' h1 h2
    exact step_trifle_clock_mono hs id n n' h1 h2
  · intro id db db' h n n' h1 h2
    exact steps_user_clock_mono id h n n' h1 h2
  · intro id db db' h n n' h1 h2
    exact steps_trifle_clock_mono id h n n' h1 h2
  · exact ⟨fun u hu => by simp [emptyDB] at hu, fun t ht => by simp [emptyDB] at ht⟩
  · intro db db' hs hc
    exact step_preserves_ClocksGE1 hs hc
  · intro db id n hc h
    rw [userClock] at h
    cases hf : getUser db id with
    | none => rw [hf, Option.map_none'] at h; exact absurd h (by simp)
    | some u =>
      rw [hf, Option.map_some'] at h
      injection h with h
      rw [← h]
      exact hc.1 u (findByKey_some hf).1
  · intro db id n hc h
    rw [trifleClock] at h
    cases hf : getTrifle db id with
    | none => rw [hf, Option.map_none'] at h; exact absurd h (by simp)
    | some t =>
      rw [hf, Option.map_some'] at h
      injection h with h
      rw [← h]
      exact hc.2 t (findByKey_some hf).1

/-- C4 witness: clock monotonicity across a concrete step. -/
theorem C4_logical_clock_invariant_witness :
    userClock dbC4 "user_a" = some 3 ∧
    userClock (createVersion dbC4 "t" "h" "session" 0).1 "user_a" = some 3 ∧
    (3 : Nat) ≤ 3 :=
  ⟨rfl, rfl, C4_logical_clock_invariant.2.2.2.2.1 dbC4 _
    (Step.cversion dbC4 "t" "h" "session" 0) "user_a" 3 3 rfl rfl⟩

/-- C8 (divergence): the editor's save path never snapshots.  On every
successful `saveCurrentFile` (and on every `updateTrifle`) the `versions`
store is left exactly as it was — `createVersion` has no caller anywhere in
the source, even though calling it with the default label would append a
`'session'` snapshot as the spec prescribes. -/
theorem C8_save_creates_no_version :
    (∀ db tid path content now db',
        saveCurrentFile db tid path content now = .ok db' → db'.versions = db.versions)
    ∧ (∀ db tid data now db' t, updateTrifle db tid data now = .ok (db', t) →
        db'.versions = db.versions)
    ∧ (∀ db tid hash now, (createVersion db tid hash "session" now).1.versions =
        db.versions ++ [⟨db.nextVersionId, tid, hash, now, "session"⟩]) := by
  refine ⟨?_, ?_, fun db tid hash now => rfl⟩
  · intro db tid path content now db' h
    obtain ⟨td, t', hu⟩ := saveCurrentFile_ok_elim h
    obtain ⟨t0, -, -, -, -, -, hv, -⟩ := updateTrifle_ok_elim hu
    exact hv
  · intro db tid data now db' t h
    obtain ⟨t0, -, -, -, -, -, hv, -⟩ := updateTrifle_ok_elim h
    exact hv

unseal List.merge List.mergeSort in
/-- C8 witness: a concrete successful save that leaves the version store
empty — no `'session'` snapshot accompanies the pointer update. -/
theorem C8_save_creates_no_version_witness :
    saveCurrentFile dbC8 "trifle_a" "main.py" "pr" 5 = .ok dbC8' ∧
    dbC8'.versions = dbC8.versions ∧ dbC8.versions = [] :=
  have hok : saveCurrentFile dbC8 "trifle_a" "main.py" "pr" 5 = .ok dbC8' := rfl
  ⟨hok, C8_save_creates_no_version.1 dbC8 "trifle_a" "main.py" "pr" 5 dbC8' hok, rfl⟩

/-! ### Version-log lemmas for C5 -/

theorem getVersions_sorted (db : DB) (tid : String) :
    (getVersions db tid).Pairwise (fun a b => b.timestamp ≤ a.timestamp) := by
  have h := @List.sorted_mergeSort VersionRecord
    (fun a b : VersionRecord => decide (b.timestamp ≤ a.timestamp))
    (fun a b c hab hbc => by
      simp only [decide_eq_true_eq] at hab hbc ⊢
      omega)
    (fun a b => by
      simp only [Bool.or_eq_true, decide_eq_true_eq]
      omega)
    (db.versions.filter (fun v => v.trifle_id = tid))
  exact h.imp (by intro a b hab; simpa using hab)

theorem getVersions_mem (db : DB) (tid : String) (v : VersionRecord) :
    v ∈ getVersions db tid ↔ v ∈ db.versions ∧ v.trifle_id = tid := by
  rw [getVersions]
  simp [List.mem_mergeSort, List.mem_filter]

theorem cleanupVersions_versions (db : DB) (tid : String) (keep : Nat) :
    (cleanupVersions db tid keep).1.versions = db.versions.filter (fun v =>
      !(((toDeleteOf db tid keep).map VersionRecord.id).contains v.id)) := by
  rw [cleanupVersions]
  split
  · next hempty =>
    rw [List.isEmpty_iff] at hempty
    rw [hempty]
    simp
  · rfl

theorem cleanupVersions_count (db : DB) (tid : String) (keep : Nat) :
    (cleanupVersions db tid keep).2 = (sessionsOf db tid).length - keep := by
  rw [cleanupVersions]
  split
  · next hempty =>
    rw [List.isEmpty_iff] at hempty
    have hlen := congrArg List.length hempty
    rw [toDeleteOf, List.length_drop] at hlen
    simp only [List.length_nil] at hlen
    omega
  · show (toDeleteOf db tid keep).length = _
    rw [toDeleteOf, List.length_drop]

theorem toDeleteOf_subset (db : DB) (tid : String) (keep : Nat) {v : VersionRecord}
    (h : v ∈ toDeleteOf db tid keep) :
    v ∈ db.versions ∧ v.trifle_id = tid ∧ v.label = "session" := by
  rw [toDeleteOf] at h
  have h1 := List.mem_of_mem_drop h
  rw [sessionsOf] at h1
  have h2 := List.mem_filter.mp h1
  have h3 := (getVersions_mem db tid v).mp h2.1
  exact ⟨h3.1, h3.2, by simpa using h2.2⟩

theorem length_filter_add_length_not {α : Type} (p : α → Bool) (l : List α) :
    (l.filter p).length + (l.filter (fun a => !(p a))).length = l.length := by
  induction l with
  | nil => rfl
  | cons a l ih =>
    cases hp : p a <;> simp [List.filter_cons, hp, List.length_cons] <;> omega

theorem getVersions_map_id_nodup (db : DB) (tid : String)
    (hn : (db.versions.map VersionRecord.id).Nodup) :
    ((getVersions db tid).map VersionRecord.id).Nodup := by
  have hperm : (getVersions db tid).Perm (db.versions.filter (fun v => v.trifle_id = tid)) :=
    List.mergeSort_perm _ _
  have hsub : ((db.versions.filter (fun v => v.trifle_id = tid)).map
      VersionRecord.id).Sublist (db.versions.map VersionRecord.id) :=
    List.Sublist.map _ (List.filter_sublist _)
  exact ((hperm.map VersionRecord.id).nodup_iff).mpr (List.Nodup.sublist hsub hn)

theorem toDeleteOf_map_id_nodup (db : DB) (tid : String) (keep : Nat)
    (hn : (db.versions.map VersionRecord.id).Nodup) :
    ((toDeleteOf db tid keep).map VersionRecord.id).Nodup := by
  have h1 : ((toDeleteOf db tid keep).map VersionRecord.id).Sublist
      ((sessionsOf db tid).map VersionRecord.id) :=
    List.Sublist.map _ (List.drop_sublist _ _)
  have h2 : ((sessionsOf db tid).map VersionRecord.id).Sublist
      ((getVersions db tid).map VersionRecord.id) :=
    List.Sublist.map _ (List.filter_sublist _)
  exact List.Nodup.sublist h1 (List.Nodup.sublist h2 (getVersions_map_id_nodup db tid hn))

theorem eq_of_mem_versions_of_id_eq {db : DB}
    (hn : (db.versions.map VersionRecord.id).Nodup) {x d : VersionRecord}
    (hx : x ∈ db.versions) (hd : d ∈ db.versions) (hid : x.id = d.id) : x = d :=
  List.inj_on_of_nodup_map hn hx hd hid

/-- The records whose id is slated for deletion are exactly the `toDeleteOf`
records, as a permutation (under the store's key invariant). -/
theorem filter_hit_perm_toDeleteOf (db : DB) (tid : String) (keep : Nat)
    (hn : (db.versions.map VersionRecord.id).Nodup) :
    (db.versions.filter (fun v =>
      ((toDeleteOf db tid keep).map VersionRecord.id).contains v.id)).Perm
      (toDeleteOf db tid keep) := by
  have hvnodup : db.versions.Nodup := List.Nodup.of_map _ hn
  have hdnodup : (toDeleteOf db tid keep).Nodup :=
    List.Nodup.of_map _ (toDeleteOf_map_id_nodup db tid keep hn)
  have hmem : ∀ x, (x ∈ db.versions ∧
      ((toDeleteOf db tid keep).map VersionRecord.id).contains x.id = true) ↔
      x ∈ toDeleteOf db tid keep := by
    intro x
    constructor
    · rintro ⟨hx, hc⟩
      rw [List.contains_eq_any_beq] at hc
      simp only [List.any_eq_true, List.mem_map, beq_iff_eq] at hc
      obtain ⟨i, ⟨d, hd, rfl⟩, hideq⟩ := hc
      have hdmem : d ∈ db.versions := (toDeleteOf_subset db tid keep hd).1
      rw [eq_of_mem_versions_of_id_eq hn hx hdmem hideq]
      exact hd
    · intro hx
      refine ⟨(toDeleteOf_subset db tid keep hx).1, ?_⟩
      rw [List.contains_eq_any_beq]
      simp only [List.any_eq_true, List.mem_map, beq_iff_eq]
      exact ⟨x.id, ⟨x, hx, rfl⟩, rfl⟩
  apply List.perm_of_nodup_nodup_toFinset_eq
  · exact List.Nodup.filter _ hvnodup
  · exact hdnodup
  · apply Finset.ext
    intro a
    simp only [List.mem_toFinset, List.mem_filter]
    exact hmem a

theorem cleanupVersions_length (db : DB) (tid : String) (keep : Nat)
    (hn : (db.versions.map VersionRecord.id).Nodup) :
    (cleanupVersions db tid keep).1.versions.length + (cleanupVersions db tid keep).2 =
      db.versions.length := by
  rw [cleanupVersions_versions, cleanupVersions_count]
  have hsum := length_filter_add_length_not
    (fun v => ((toDeleteOf db tid keep).map VersionRecord.id).contains v.id) db.versions
  have hperm := (filter_hit_perm_toDeleteOf db tid keep hn).length_eq
  have hD : (toDeleteOf db tid keep).length = (sessionsOf db tid).length - keep := by
    rw [toDeleteOf, List.length_drop]
  omega

theorem sessionsOf_map_id_nodup (db : DB) (tid : String)
    (hn : (db.versions.map VersionRecord.id).Nodup) :
    ((sessionsOf db tid).map VersionRecord.id).Nodup := by
  have h2 : ((sessionsOf db tid).map VersionRecord.id).Sublist
      ((getVersions db tid).map VersionRecord.id) :=
    List.Sublist.map _ (List.filter_sublist _)
  exact List.Nodup.sublist h2 (getVersions_map_id_nodup db tid hn)

theorem filter_comm' {α : Type} (p q : α → Bool) (m : List α) :
    (m.filter q).filter p = (m.filter p).filter q := by
  simp only [List.filter_filter]
  apply List.filter_congr
  intro a ha
  rw [Bool.and_comm]

/-- After one cleanup, at most `keep` session versions remain for the pointer. -/
theorem sessionsOf_cleanup_le (db : DB) (tid : String) (keep : Nat)
    (hn : (db.versions.map VersionRecord.id).Nodup) :
    (sessionsOf (cleanupVersions db tid keep).1 tid).length ≤ keep := by
  rw [sessionsOf, getVersions, cleanupVersions_versions]
  rw [((List.mergeSort_perm _ _).filter _).length_eq]
  rw [filter_comm' (fun v => decide (v.trifle_id = tid))
    (fun v => !(((toDeleteOf db tid keep).map VersionRecord.id).contains v.id)) db.versions]
  rw [filter_comm' (fun v => decide (v.label = "session"))
    (fun v => !(((toDeleteOf db tid keep).map VersionRecord.id).contains v.id))
    (db.versions.filter (fun v => decide (v.trifle_id = tid)))]
  have hTS : (sessionsOf db tid).Perm
      ((db.versions.filter (fun v => decide (v.trifle_id = tid))).filter
        (fun v => decide (v.label = "session"))) := by
    rw [sessionsOf, getVersions]
    exact (List.mergeSort_perm _ _).filter _
  rw [← ((hTS.filter
    (fun v => !(((toDeleteOf db tid keep).map VersionRecord.id).contains v.id))).length_eq)]
  have hsplit : sessionsOf db tid =
      (sessionsOf db tid).take keep ++ toDeleteOf db tid keep := by
    rw [toDeleteOf]
    exact (List.take_append_drop keep (sessionsOf db tid)).symm
  rw [show ((sessionsOf db tid).filter
      (fun v => !(((toDeleteOf db tid keep).map VersionRecord.id).contains v.id))) =
      (((sessionsOf db tid).take keep ++ toDeleteOf db tid keep).filter
      (fun v => !(((toDeleteOf db tid keep).map VersionRecord.id).contains v.id)))
    from by rw [← hsplit]]
  rw [List.filter_append]
  have hDnil : (toDeleteOf db tid keep).filter
      (fun v => !(((toDeleteOf db tid keep).map VersionRecord.id).contains v.id)) = [] := by
    rw [List.filter_eq_nil_iff]
    intro d hd
    simp only [Bool.not_eq_true', Bool.not_eq_false]
    rw [List.contains_eq_any_beq]
    simp only [List.any_eq_true, List.mem_map, beq_iff_eq]
    exact ⟨d.id, ⟨d, hd, rfl⟩, rfl⟩
  have hKself : ((sessionsOf db tid).take keep).filter
      (fun v => !(((toDeleteOf db tid keep).map VersionRecord.id).contains v.id)) =
      (sessionsOf db tid).take keep := by
    rw [List.filter_eq_self]
    intro k hk
    simp only [Bool.not_eq_true']
    rw [Bool.eq_false_iff]
    intro hc
    rw [List.contains_eq_any_beq] at hc
    simp only [List.any_eq_true, List.mem_map, beq_iff_eq] at hc
    obtain ⟨i, ⟨d, hd, rfl⟩, hideq⟩ := hc
    have hnodupS : ((sessionsOf db tid).map VersionRecord.id).Nodup :=
      sessionsOf_map_id_nodup db tid hn
    rw [hsplit, List.map_append, List.nodup_append] at hnodupS
    exact hnodupS.2.2 (List.mem_map.mpr ⟨k, hk, rfl⟩)
      (List.mem_map.mpr ⟨d, hd, hideq.symm⟩)
  rw [hDnil, hKself, List.append_nil]
  exact List.length_take_le _ _

/-- `cleanupVersions` is idempotent: an immediate second run deletes nothing
and leaves the store unchanged. -/
theorem cleanupVersions_idempotent (db : DB) (tid : String) (keep : Nat)
    (hn : (db.versions.map VersionRecord.id).Nodup) :
    cleanupVersions (cleanupVersions db tid keep).1 tid keep =
      ((cleanupVersions db tid keep).1, 0) := by
  have hkey : toDeleteOf (cleanupVersions db tid keep).1 tid keep = [] := by
    rw [toDeleteOf]
    exact List.drop_eq_nil_of_le (sessionsOf_cleanup_le db tid keep hn)
  rw [cleanupVersions, hkey]
  rfl

/-- C5: `getVersions` returns all of the pointer's versions sorted
newest-first by timestamp; `cleanupVersions` (default keep count 10 at the JS
boundary) deletes exactly the session-labeled versions beyond the newest
`keepCount` — checkpoint-labeled versions and other pointers' versions always
survive — returns the number deleted, and is idempotent: an immediate second
run deletes 0 and leaves the store unchanged. -/
theorem C5_version_log_retention :
    (∀ db tid, (getVersions db tid).Pairwise (fun a b => b.timestamp ≤ a.timestamp))
    ∧ (∀ db tid v, v ∈ getVersions db tid ↔ v ∈ db.versions ∧ v.trifle_id = tid)
    ∧ (∀ db tid keep, (cleanupVersions db tid keep).2 = (sessionsOf db tid).length - keep)
    ∧ (∀ db tid keep, (cleanupVersions db tid keep).1.versions =
        db.versions.filter (fun v =>
          !(((toDeleteOf db tid keep).map VersionRecord.id).contains v.id)))
    ∧ (∀ db tid keep v, (db.versions.map VersionRecord.id).Nodup → v ∈ db.versions →
        v.label ≠ "session" → v ∈ (cleanupVersions db tid keep).1.versions)
    ∧ (∀ db tid keep v, (db.versions.map VersionRecord.id).Nodup → v ∈ db.versions →
        v.trifle_id ≠ tid → v ∈ (cleanupVersions db tid keep).1.versions)
    ∧ (∀ db tid keep v, v ∈ toDeleteOf db tid keep →
        v ∉ (cleanupVersions db tid keep).1.versions)
    ∧ (∀ db tid keep, (db.versions.map VersionRecord.id).Nodup →
        (cleanupVersions db tid keep).1.versions.length + (cleanupVersions db tid keep).2 =
          db.versions.length)
    ∧ (∀ db tid keep, (db.versions.map VersionRecord.id).Nodup →
        cleanupVersions (cleanupVersions db tid keep).1 tid keep =
          ((cleanupVersions db tid keep).1, 0)) := by
  refine ⟨getVersions_sorted, getVersions_mem, cleanupVersions_count,
    cleanupVersions_versions, ?_, ?_, ?_, cleanupVersions_length,
    cleanupVersions_idempotent⟩
  · intro db tid keep v hn hv hlab
    rw [cleanupVersions_versions]
    refine List.mem_filter.mpr ⟨hv, ?_⟩
    simp only [Bool.not_eq_true']
    rw [Bool.eq_false_iff]
    intro hc
    rw [List.contains_eq_any_beq] at hc
    simp only [List.any_eq_true, List.mem_map, beq_iff_eq] at hc
    obtain ⟨i, ⟨d, hd, rfl⟩, hideq⟩ := hc
    obtain ⟨hdmem, -, hdlab⟩ := toDeleteOf_subset db tid keep hd
    have : v = d := eq_of_mem_versions_of_id_eq hn hv hdmem hideq
    rw [this] at hlab
    exact hlab hdlab
  · intro db tid keep v hn hv htid
    rw [cleanupVersions_versions]
    refine List.mem_filter.mpr ⟨hv, ?_⟩
    simp only [Bool.not_eq_true']
    rw [Bool.eq_false_iff]
    intro hc
    rw [List.contains_eq_any_beq] at hc
    simp only [List.any_eq_true, List.mem_map, beq_iff_eq] at hc
    obtain ⟨i, ⟨d, hd, rfl⟩, hideq⟩ := hc
    obtain ⟨hdmem, hdtid, -⟩ := toDeleteOf_subset db tid keep hd
    have : v = d := eq_of_mem_versions_of_id_eq hn hv hdmem hideq
    rw [this] at htid
    exact htid hdtid
  · intro db tid keep v hvD hvmem
    rw [cleanupVersions_versions] at hvmem
    have hP := (List.mem_filter.mp hvmem).2
    simp only [Bool.not_eq_true'] at hP
    rw [Bool.eq_false_iff] at hP
    apply hP
    rw [List.contains_eq_any_beq]
    simp only [List.any_eq_true, List.mem_map, beq_iff_eq]
    exact ⟨v.id, ⟨v, hvD, rfl⟩, rfl⟩

unseal List.merge List.mergeSort in
/-- C5 witness: running `cleanupVersions` twice with keep count 1 on a store
with two session versions — the second run deletes nothing. -/
theorem C5_version_log_retention_witness :
    (cleanupVersions dbC5 "t" 1).2 = 1 ∧
    cleanupVersions (cleanupVersions dbC5 "t" 1).1 "t" 1 =
      ((cleanupVersions dbC5 "t" 1).1, 0) :=
  ⟨rfl, C5_version_log_retention.2.2.2.2.2.2.2.2 dbC5 "t" 1 (by decide)⟩
